import Mathlib

/-!
Shallow embedding of the `BigInt` class from `src/bigint.hpp`.

A `BigInt` stores its decimal digits least-significant first in `number`
(`std::vector<int64_t>` in the source) together with a sign flag
`isNegative`.  All digit arithmetic in the source is performed on
`int64_t` values whose magnitudes stay far below `2^63` (digits are in
`[0,9]`, carries and partial products are below `100`), so `ℤ` is a
faithful model of the digit arithmetic; `%` and `/` on `int64_t` are the
truncating operations `Int.tmod` / `Int.tdiv`.  The one place where
64-bit overflow matters — `std::abs` applied to the most negative
64-bit integer in the `BigInt(int64_t)` constructor — is modelled
explicitly with two's-complement wraparound.
-/

namespace BigIntModel

/-- C++ `/` on `int64_t` values: truncating division. -/
def cppDiv (a b : ℤ) : ℤ := Int.tdiv a b

/-- C++ `%` on `int64_t` values: truncating remainder. -/
def cppMod (a b : ℤ) : ℤ := Int.tmod a b

/-- Two's-complement wraparound of an integer into the `int64_t` range. -/
def wrap64 (n : ℤ) : ℤ := (n + 2 ^ 63) % 2 ^ 64 - 2 ^ 63

/-- `std::abs` on `int64_t`: negating the most negative value overflows
(undefined behaviour in C++); modelled as the usual two's-complement
wraparound, under which `abs` of the minimum value is the value itself. -/
def cppAbs64 (n : ℤ) : ℤ := wrap64 (if n < 0 then -n else n)

/-- The `BigInt` state: digit vector `number` (least-significant digit
first) and the sign flag `isNegative`, mirroring the two data members. -/
structure BigInt where
  number : List ℤ
  isNegative : Bool
deriving DecidableEq

/-- The `while (number.size() > 1 && number.back() == 0) number.pop_back();`
loop of `removeLeadingZero`, acting on the reversed (most-significant
first) digit list. -/
def stripBack : List ℤ → List ℤ
  | [] => []
  | [d] => [d]
  | d :: ds => if d = 0 then stripBack ds else d :: ds

/-- `BigInt::removeLeadingZero`: strip most-significant zero digits while
more than one digit remains, then force the sign to non-negative when the
remaining digit vector is exactly `[0]`. -/
def removeLeadingZero (x : BigInt) : BigInt :=
  let n := (stripBack x.number.reverse).reverse
  { number := n, isNegative := if n = [0] then false else x.isNegative }

/-- The `do { push_back(i % 10); i /= 10; } while (i != 0)` digit loop of
`BigInt(int64_t)`.  The fuel argument only bounds the recursion; the
wrapper below supplies `|i| + 1`, which always covers the loop (the
quotient loses a digit each round), and on fuel 0 the body still runs
once, matching the do-while. -/
def intDigitsAux : ℕ → ℤ → List ℤ
  | 0, i => [cppMod i 10]
  | fuel + 1, i =>
      let d := cppMod i 10
      let j := cppDiv i 10
      if j = 0 then [d] else d :: intDigitsAux fuel j

/-- Digit list produced by the `BigInt(int64_t)` extraction loop. -/
def intDigits (i : ℤ) : List ℤ := intDigitsAux i.natAbs i

/-- `BigInt(int64_t integer)`: record the sign, take `std::abs`, then
extract decimal digits least-significant first.  The final
`if (number.empty()) number.push_back(0);` of the source is kept even
though the do-while always pushes at least one digit. -/
def mkInt64 (n : ℤ) : BigInt :=
  let ds := intDigits (cppAbs64 n)
  { number := if ds = [] then [0] else ds, isNegative := decide (n < 0) }

/-- `std::isdigit` on the parsed characters: ASCII decimal digit test. -/
def isdigitChar (c : Char) : Bool := decide ('0' ≤ c) && decide (c ≤ '9')

/-- `c - '0'` on a character, as an `int64_t` value. -/
def digitVal (c : Char) : ℤ := (c.toNat : ℤ) - ('0'.toNat : ℤ)

/-- `BigInt(const std::string& str)`.  Empty input and a bare sign throw
`std::invalid_argument`; otherwise the characters after the optional
leading `-` are scanned from the back, each must be a digit (else the
constructor throws), and are pushed least-significant first; finally
`removeLeadingZero()` runs.  (The trailing `if (number.empty())` check of
the source is dead: the scan pushes at least one digit.)  The error
strings are the messages of the three `throw` sites. -/
def parseString : List Char → Except String BigInt
  | [] => Except.error "It is empty"
  | c :: cs =>
      let negative := c = '-'
      let body := if c = '-' then cs else c :: cs
      if body = [] then Except.error "Only the symbol of negative"
      else if body.all isdigitChar then
        Except.ok (removeLeadingZero
          { number := (body.map digitVal).reverse, isNegative := negative })
      else Except.error "String with other symbol"

/-- Decimal rendering of one stored `int64_t` digit, as
`operator<<(std::ostream&, int64_t)` prints it (sign, then digits). -/
def intToChars (d : ℤ) : List Char :=
  if d < 0 then '-' :: Nat.toDigits 10 d.natAbs else Nat.toDigits 10 d.natAbs

/-- `operator<<(std::ostream&, const BigInt&)`: an optional `-`, then the
stored digits printed from most-significant to least-significant. -/
def formatBI (x : BigInt) : List Char :=
  (if x.isNegative then ['-'] else []) ++ x.number.reverse.flatMap intToChars

/-- Tail of the `absoluteAdd` loop once one operand's digits are
exhausted and only a carry may remain: `sum = carry + digit` each round. -/
def carryFlush : ℕ → ℤ → List ℤ
  | 0, _ => []
  | fuel + 1, c => if c = 0 then [] else cppMod c 10 :: carryFlush fuel (cppDiv c 10)

/-- The `absoluteAdd` loop over the digits of a single remaining operand,
with the pending carry; ends in the pure carry-propagation rounds
(`carryFlush`, whose fuel `|c| + 1` always covers them). -/
def addTail : List ℤ → ℤ → List ℤ
  | [], c => carryFlush (c.natAbs + 1) c
  | b :: bs, c =>
      let s := c + b
      cppMod s 10 :: addTail bs (cppDiv s 10)

/-- The `for (i = 0; i < maxLength || carry; ++i)` loop of
`BigInt::absoluteAdd`: digit-wise sum with carry, `sum % 10` stored and
`sum / 10` carried. -/
def addLoop : List ℤ → List ℤ → ℤ → List ℤ
  | [], bs, c => addTail bs c
  | a :: as, [], c => addTail (a :: as) c
  | a :: as, b :: bs, c =>
      let s := c + a + b
      cppMod s 10 :: addLoop as bs (cppDiv s 10)

/-- `BigInt::absoluteAdd`: magnitude addition; the result object is the
default `BigInt` whose digits are cleared and refilled by the loop, so
its sign flag is `false`. -/
def absoluteAdd (a b : BigInt) : BigInt :=
  { number := addLoop a.number b.number 0, isNegative := false }

/-- The digit loop of `BigInt::absoluteSubtract`: iterate over the digits
of `a`, subtracting the matching digit of `b` (or 0) and the borrow;
a negative difference is fixed up by `+ 10` with borrow 1. -/
def subLoop : List ℤ → List ℤ → ℤ → List ℤ
  | [], _, _ => []
  | a :: as, [], borrow =>
      let d := a - borrow
      if d < 0 then (d + 10) :: subLoop as [] 1 else d :: subLoop as [] 0
  | a :: as, b :: bs, borrow =>
      let d := a - b - borrow
      if d < 0 then (d + 10) :: subLoop as bs 1 else d :: subLoop as bs 0

/-- `BigInt::absoluteSubtract` (caller guarantees `|a| ≥ |b|`): digit-wise
subtraction with borrow over the length of `a`, then `removeLeadingZero`. -/
def absoluteSubtract (a b : BigInt) : BigInt :=
  removeLeadingZero { number := subLoop a.number b.number 0, isNegative := false }

/-- The scan of `BigInt::absoluteComparison` from the most significant
digit down, on the reversed digit lists: return at the first mismatch. -/
def cmpFromMSD : List ℤ → List ℤ → ℤ
  | a :: as, b :: bs =>
      if a ≠ b then (if a > b then 1 else -1) else cmpFromMSD as bs
  | _, _ => 0

/-- `BigInt::absoluteComparison`: compare digit counts first, then scan
from the most significant digit; `1` for greater, `-1` for less, `0` for
equal. -/
def absoluteComparison (a b : BigInt) : ℤ :=
  if a.number.length ≠ b.number.length then
    if a.number.length > b.number.length then 1 else -1
  else cmpFromMSD a.number.reverse b.number.reverse

/-- `BigInt::operator+`: same signs delegate to `absoluteAdd` and keep
the common sign; opposite signs subtract the smaller magnitude from the
larger, the result taking the sign of the operand with the larger (or,
in the tie case, the left operand's) magnitude.  The sign flag is
assigned *after* `absoluteSubtract` has canonicalized. -/
def addBI (x y : BigInt) : BigInt :=
  if x.isNegative = y.isNegative then
    let sum := absoluteAdd x y
    { number := sum.number, isNegative := x.isNegative }
  else if 0 ≤ absoluteComparison x y then
    let difference := absoluteSubtract x y
    { number := difference.number, isNegative := x.isNegative }
  else
    let diff := absoluteSubtract y x
    { number := diff.number, isNegative := y.isNegative }

/-- `BigInt::operator-` (unary): copy, then clear the sign when
`number[0] == 0 && number.size() == 1`, otherwise flip it. -/
def negBI (x : BigInt) : BigInt :=
  if x.number.headI = 0 ∧ x.number.length = 1 then
    { number := x.number, isNegative := false }
  else
    { number := x.number, isNegative := !x.isNegative }

/-- `BigInt::operator-` (binary): `*this + (-other)`. -/
def subBI (x y : BigInt) : BigInt := addBI x (negBI y)

/-- `BigInt::operator==`: digit vectors and sign flags both equal. -/
def eqBI (x y : BigInt) : Bool :=
  let sameSign := x.isNegative == y.isNegative
  let sameNumber := x.number == y.number
  sameNumber && sameSign

/-- `BigInt::operator!=`: recomputes the same two comparisons as
`operator==` and negates their conjunction. -/
def neBI (x y : BigInt) : Bool :=
  let sameSign := x.isNegative == y.isNegative
  let sameNumber := x.number == y.number
  !(sameNumber && sameSign)

/-- `BigInt::operator<`: differing signs answer with the left sign flag;
two negatives reverse the magnitude comparison; two non-negatives follow
the magnitude comparison. -/
def ltBI (x y : BigInt) : Bool :=
  if x.isNegative ≠ y.isNegative then x.isNegative
  else if x.isNegative then decide (absoluteComparison x y > 0)
  else decide (absoluteComparison x y < 0)

/-- `BigInt::operator>`: `other < *this`. -/
def gtBI (x y : BigInt) : Bool := ltBI y x

/-- `BigInt::operator<=`: `!(other < *this)`. -/
def leBI (x y : BigInt) : Bool := !(ltBI y x)

/-- `BigInt::operator>=`: `!(*this < other)`. -/
def geBI (x y : BigInt) : Bool := !(ltBI x y)

/-- The inner `for (j = 0; j < other.number.size() || carry; ++j)` loop of
`BigInt::operator*` for the row digit `d`, acting on the suffix of the
result buffer that starts at position `i`: each round reads the buffer
cell, adds `d * other.number[j]` (0 once `j` runs past the end) and the
carry, stores `current % 10` and carries `current / 10`.  A buffer too
short for a pending write (impossible with the source's `n + m` sizing)
is modelled by stopping. -/
def innerLoop (d : ℤ) : List ℤ → ℤ → List ℤ → List ℤ
  | [], carry, acc =>
      if carry = 0 then acc
      else
        match acc with
        | [] => []
        | a :: acc2 =>
            let current := a + carry
            cppMod current 10 :: innerLoop d [] (cppDiv current 10) acc2
  | b :: bs, carry, acc =>
      match acc with
      | [] => []
      | a :: acc2 =>
          let current := a + d * b + carry
          cppMod current 10 :: innerLoop d bs (cppDiv current 10) acc2

/-- The outer loop of `BigInt::operator*`: one `innerLoop` pass per digit
of the left operand, each starting one buffer position further right. -/
def outerLoop (bs : List ℤ) : List ℤ → List ℤ → List ℤ
  | [], buffer => buffer
  | d :: ds, buffer =>
      match innerLoop d bs 0 buffer with
      | [] => []
      | h :: t => h :: outerLoop bs ds t

/-- `BigInt::operator*`: resize the result buffer to `n + m` zeros, set
the sign to the XOR of the operand signs, run the schoolbook double
loop, then `removeLeadingZero`. -/
def mulBI (x y : BigInt) : BigInt :=
  let buffer := List.replicate (x.number.length + y.number.length) (0 : ℤ)
  let res := outerLoop y.number x.number buffer
  removeLeadingZero { number := res, isNegative := x.isNegative != y.isNegative }

/-- `BigInt::operator++()` (pre): `*this = *this + 1`, the literal `1`
converted through `BigInt(int64_t)`. -/
def preIncrement (x : BigInt) : BigInt := addBI x (mkInt64 1)

/-- `BigInt::operator++(int)` (post): pair of (returned snapshot, new
state of the object). -/
def postIncrement (x : BigInt) : BigInt × BigInt := (x, preIncrement x)

/-- `BigInt::operator--()` (pre): `*this = *this - 1`. -/
def preDecrement (x : BigInt) : BigInt := subBI x (mkInt64 1)

/-- `BigInt::operator--(int)` (post): pair of (returned snapshot, new
state of the object). -/
def postDecrement (x : BigInt) : BigInt × BigInt := (x, preDecrement x)

/-! ## Semantics: represented value and the canonical-form invariant -/

/-- Value of a least-significant-first digit list. -/
def magVal : List ℤ → ℤ
  | [] => 0
  | d :: ds => d + 10 * magVal ds

/-- The integer a `BigInt` state represents. -/
def val (x : BigInt) : ℤ :=
  if x.isNegative then -magVal x.number else magVal x.number

/-- Every stored digit lies in `[0, 9]`. -/
def DigitsInRange (l : List ℤ) : Prop := ∀ d ∈ l, 0 ≤ d ∧ d ≤ 9

instance : DecidablePred DigitsInRange := fun l =>
  inferInstanceAs (Decidable (∀ d ∈ l, 0 ≤ d ∧ d ≤ 9))

/-- No most-significant zero digit unless the list is a singleton. -/
def ShapeOk (l : List ℤ) : Prop := 1 < l.length → l.getLastD 0 ≠ 0

instance : DecidablePred ShapeOk := fun l =>
  inferInstanceAs (Decidable (1 < l.length → l.getLastD 0 ≠ 0))

/-- The documented class invariant: non-empty digit vector, digits in
`[0,9]`, no leading zero beyond a single `[0]`, and a non-negative sign
flag on the zero value. -/
def Canonical (x : BigInt) : Prop :=
  x.number ≠ [] ∧ DigitsInRange x.number ∧ ShapeOk x.number ∧
    (x.number = [0] → x.isNegative = false)

instance : DecidablePred Canonical := fun x =>
  inferInstanceAs (Decidable (x.number ≠ [] ∧ DigitsInRange x.number ∧
    ShapeOk x.number ∧ (x.number = [0] → x.isNegative = false)))

/-- The last digit (most significant) is nonzero; fails on `[]`. -/
def LastNonzero (l : List ℤ) : Prop := l.getLastD 0 ≠ 0

/-- A digit list in canonical form (the magnitude part of `Canonical`). -/
def CanonDigits (l : List ℤ) : Prop := l ≠ [] ∧ DigitsInRange l ∧ ShapeOk l

instance : DecidablePred CanonDigits := fun l =>
  inferInstanceAs (Decidable (l ≠ [] ∧ DigitsInRange l ∧ ShapeOk l))

/-- The string grammar `'-'? digit+` of the specification, as a Boolean
predicate: nonempty, an optional single leading `-`, then at least one
character, all ASCII decimal digits. -/
def goodNumeralB : List Char → Bool
  | [] => false
  | c :: cs =>
      if c = '-' then !cs.isEmpty && cs.all isdigitChar
      else (c :: cs).all isdigitChar

/-- The grammar `'-'? digit+` as a proposition. -/
def GoodNumeral (s : List Char) : Prop := goodNumeralB s = true

/-- Strings for which the round-trip claim is stated: they match
`'-'? digit+`, have no superfluous leading zero digit, and are not
`"-0"`. -/
def roundTripOkB : List Char → Bool
  | [] => false
  | c :: cs =>
      if c = '-' then
        !cs.isEmpty && cs.all isdigitChar && !(cs.headI = '0')
      else
        (c :: cs).all isdigitChar && (!(c = '0') || cs.isEmpty)

/-- Round-trip precondition as a proposition. -/
def RoundTripOk (s : List Char) : Prop := roundTripOkB s = true

instance : DecidablePred GoodNumeral := fun s =>
  inferInstanceAs (Decidable (goodNumeralB s = true))

instance : DecidablePred RoundTripOk := fun s =>
  inferInstanceAs (Decidable (roundTripOkB s = true))

/-- Mathematical value of a most-significant-first digit-character list. -/
def decDigitsVal (l : List Char) : ℤ := l.foldl (fun a c => 10 * a + digitVal c) 0

/-- Mathematical value of a decimal numeral matching `'-'? digit+`. -/
def strToInt : List Char → ℤ
  | [] => 0
  | c :: cs => if c = '-' then -decDigitsVal cs else decDigitsVal (c :: cs)

/-! ## Basic facts about the modelled `%` and `/` -/

theorem cppDecomp (a : ℤ) : 10 * cppDiv a 10 + cppMod a 10 = a :=
  Int.tdiv_add_tmod a 10

theorem cppMod_nonneg {a : ℤ} (h : 0 ≤ a) : 0 ≤ cppMod a 10 :=
  Int.tmod_nonneg 10 h

theorem cppMod_lt {a : ℤ} (h : 0 ≤ a) : cppMod a 10 < 10 := by
  unfold cppMod
  rw [Int.tmod_eq_emod h (by norm_num)]
  exact Int.emod_lt_of_pos a (by norm_num)

theorem cppDiv_nonneg {a : ℤ} (h : 0 ≤ a) : 0 ≤ cppDiv a 10 := by
  unfold cppDiv
  rw [Int.tdiv_eq_ediv h (by norm_num)]
  exact Int.ediv_nonneg h (by norm_num)

/-! ## Values of digit lists -/

theorem magVal_nil : magVal [] = 0 := rfl

theorem magVal_cons (d : ℤ) (ds : List ℤ) : magVal (d :: ds) = d + 10 * magVal ds := rfl

theorem digitsInRange_cons {d : ℤ} {ds : List ℤ} (h : DigitsInRange (d :: ds)) :
    (0 ≤ d ∧ d ≤ 9) ∧ DigitsInRange ds :=
  ⟨h d (List.mem_cons_self d ds), fun e he => h e (List.mem_cons_of_mem d he)⟩

theorem digitsInRange_cons_of {d : ℤ} {ds : List ℤ} (hd : 0 ≤ d ∧ d ≤ 9)
    (hds : DigitsInRange ds) : DigitsInRange (d :: ds) := by
  intro e he
  rcases List.mem_cons.mp he with h | h
  · exact h ▸ hd
  · exact hds e h

theorem magVal_nonneg {l : List ℤ} (h : DigitsInRange l) : 0 ≤ magVal l := by
  induction l with
  | nil => simp [magVal]
  | cons d ds ih =>
    obtain ⟨hd, hds⟩ := digitsInRange_cons h
    have := ih hds
    rw [magVal_cons]
    omega

theorem magVal_lt {l : List ℤ} (h : DigitsInRange l) : magVal l < 10 ^ l.length := by
  induction l with
  | nil => simp [magVal]
  | cons d ds ih =>
    obtain ⟨hd, hds⟩ := digitsInRange_cons h
    have h1 := ih hds
    have h2 := magVal_nonneg hds
    rw [magVal_cons, List.length_cons, pow_succ]
    have : (10 : ℤ) ^ ds.length * 10 = 10 * 10 ^ ds.length := by ring
    rw [this]
    omega

theorem magVal_append (l₁ l₂ : List ℤ) :
    magVal (l₁ ++ l₂) = magVal l₁ + 10 ^ l₁.length * magVal l₂ := by
  induction l₁ with
  | nil => simp [magVal]
  | cons d ds ih =>
    rw [List.cons_append, magVal_cons, magVal_cons, ih, List.length_cons, pow_succ]
    ring

theorem getLastD_default_eq {l : List ℤ} (h : l ≠ []) (a b : ℤ) :
    l.getLastD a = l.getLastD b := by
  rw [List.getLastD_eq_getLast?, List.getLastD_eq_getLast?]
  cases hl : l.getLast? with
  | none => exact absurd (List.getLast?_eq_none_iff.mp hl) h
  | some x => rfl

theorem magVal_decomp {l : List ℤ} (h : l ≠ []) :
    magVal l = magVal l.dropLast + 10 ^ (l.length - 1) * l.getLastD 0 := by
  conv_lhs => rw [← List.dropLast_append_getLast h]
  rw [magVal_append, List.length_dropLast]
  have : l.getLast h = l.getLastD 0 := by
    rw [List.getLastD_eq_getLast?, List.getLast?_eq_getLast l h]
    rfl
  rw [← this, magVal_cons, magVal_nil]
  ring

theorem digitsInRange_dropLast {l : List ℤ} (h : DigitsInRange l) :
    DigitsInRange l.dropLast :=
  fun d hd => h d ((List.dropLast_sublist l).mem hd)

theorem getLastD_mem {l : List ℤ} (h : l ≠ []) : l.getLastD 0 ∈ l := by
  cases l with
  | nil => exact absurd rfl h
  | cons d ds =>
    rw [List.getLastD_cons]
    exact List.getLastD_mem_cons ds d

theorem magVal_lower {l : List ℤ} (hr : DigitsInRange l) (hl : LastNonzero l) :
    10 ^ (l.length - 1) ≤ magVal l := by
  have hne : l ≠ [] := by
    intro h
    subst h
    exact hl rfl
  have hlast := hr _ (getLastD_mem hne)
  have h1 : (1 : ℤ) ≤ l.getLastD 0 := by
    have := hl
    unfold LastNonzero at this
    omega
  have h2 := magVal_nonneg (digitsInRange_dropLast hr)
  have h3 : (0 : ℤ) ≤ 10 ^ (l.length - 1) := by positivity
  have h4 : (10 : ℤ) ^ (l.length - 1) * 1 ≤ 10 ^ (l.length - 1) * l.getLastD 0 :=
    mul_le_mul_of_nonneg_left h1 h3
  rw [magVal_decomp hne]
  nlinarith

theorem magVal_last_zero_lt {l : List ℤ} (hr : DigitsInRange l) (hne : l ≠ [])
    (h0 : l.getLastD 0 = 0) : magVal l < 10 ^ (l.length - 1) := by
  rw [magVal_decomp hne, h0, mul_zero, add_zero]
  have := magVal_lt (digitsInRange_dropLast hr)
  rwa [List.length_dropLast] at this

theorem lastNonzero_of_shape {l : List ℤ} (h : ShapeOk l) (hlen : 1 < l.length) :
    LastNonzero l := h hlen

theorem canonDigits_ge_ten {d e : ℤ} {es : List ℤ} (h : CanonDigits (d :: e :: es)) :
    10 ≤ magVal (d :: e :: es) := by
  have hlow := magVal_lower h.2.1 (lastNonzero_of_shape h.2.2 (by simp))
  have hlen : (d :: e :: es).length - 1 = es.length + 1 := by simp
  rw [hlen, pow_succ] at hlow
  have h10 : (1 : ℤ) ≤ 10 ^ es.length := one_le_pow₀ (by norm_num)
  linarith

theorem canonDigits_zero {l : List ℤ} (h : CanonDigits l) : magVal l = 0 ↔ l = [0] := by
  constructor
  · intro hv
    match l, h.1 with
    | [d], _ =>
      rw [magVal_cons, magVal_nil] at hv
      simp only [List.cons.injEq, and_true]
      omega
    | d₁ :: d₂ :: rest, _ =>
      have := canonDigits_ge_ten h
      omega
  · intro hv
    subst hv
    rfl

theorem canonDigits_tail {d e : ℤ} {es : List ℤ} (h : CanonDigits (d :: e :: es)) :
    CanonDigits (e :: es) := by
  obtain ⟨_, hr, hs⟩ := h
  refine ⟨by simp, (digitsInRange_cons hr).2, ?_⟩
  intro hlen
  have h1 : 1 < (d :: e :: es).length := by simp
  have h2 := hs h1
  rwa [List.getLastD_cons, getLastD_default_eq (by simp) d 0] at h2

theorem canonDigits_inj {l₁ : List ℤ} :
    ∀ {l₂ : List ℤ}, CanonDigits l₁ → CanonDigits l₂ → magVal l₁ = magVal l₂ → l₁ = l₂ := by
  induction l₁ with
  | nil => exact fun h₁ _ _ => absurd rfl h₁.1
  | cons d₁ t₁ ih =>
    intro l₂ h₁ h₂ hv
    cases l₂ with
    | nil => exact absurd rfl h₂.1
    | cons d₂ t₂ =>
      obtain ⟨hd₁, ht₁⟩ := digitsInRange_cons h₁.2.1
      obtain ⟨hd₂, ht₂⟩ := digitsInRange_cons h₂.2.1
      rw [magVal_cons, magVal_cons] at hv
      match t₁, t₂ with
      | [], [] =>
        rw [magVal_nil] at hv
        have : d₁ = d₂ := by omega
        rw [this]
      | [], e₂ :: es₂ =>
        exfalso
        have hlow := canonDigits_ge_ten h₂
        rw [magVal_cons] at hlow
        rw [magVal_nil] at hv
        omega
      | e₁ :: es₁, [] =>
        exfalso
        have hlow := canonDigits_ge_ten h₁
        rw [magVal_cons] at hlow
        rw [magVal_nil] at hv
        omega
      | e₁ :: es₁, e₂ :: es₂ =>
        have hA := magVal_nonneg ht₁
        have hB := magVal_nonneg ht₂
        have hd : d₁ = d₂ := by omega
        have hm : magVal (e₁ :: es₁) = magVal (e₂ :: es₂) := by omega
        have := ih (canonDigits_tail h₁) (canonDigits_tail h₂) hm
        rw [hd, this]

theorem canonical_val_inj {x y : BigInt} (hx : Canonical x) (hy : Canonical y)
    (h : val x = val y) : x = y := by
  obtain ⟨hxne, hxr, hxs, hx0⟩ := hx
  obtain ⟨hyne, hyr, hys, hy0⟩ := hy
  have hxm := magVal_nonneg hxr
  have hym := magVal_nonneg hyr
  cases x with
  | mk nx sx =>
    cases y with
    | mk ny sy =>
      simp only [val] at h
      simp only at hxne hxr hxs hx0 hyne hyr hys hy0 hxm hym
      cases sx <;> cases sy <;> simp only [Bool.false_eq_true, if_true, if_false,
        if_pos, if_neg, reduceIte] at h
      · have : nx = ny := canonDigits_inj ⟨hxne, hxr, hxs⟩ ⟨hyne, hyr, hys⟩ h
        rw [this]
      · have hz : magVal nx = 0 ∧ magVal ny = 0 := by omega
        have h1 : ny = [0] := (canonDigits_zero ⟨hyne, hyr, hys⟩).mp hz.2
        exact absurd (hy0 h1) (by simp)
      · have hz : magVal nx = 0 ∧ magVal ny = 0 := by omega
        have h1 : nx = [0] := (canonDigits_zero ⟨hxne, hxr, hxs⟩).mp hz.1
        exact absurd (hx0 h1) (by simp)
      · have : nx = ny := canonDigits_inj ⟨hxne, hxr, hxs⟩ ⟨hyne, hyr, hys⟩ (by omega)
        rw [this]

/-! ## Canonicalization (`removeLeadingZero`) -/

theorem stripBack_nil : stripBack [] = [] := rfl

theorem stripBack_singleton (d : ℤ) : stripBack [d] = [d] := rfl

theorem stripBack_cons₂ (d e : ℤ) (es : List ℤ) :
    stripBack (d :: e :: es) = if d = 0 then stripBack (e :: es) else d :: e :: es := rfl

theorem stripBack_idem (r : List ℤ) : stripBack (stripBack r) = stripBack r := by
  induction r with
  | nil => rfl
  | cons d ds ih =>
    cases ds with
    | nil => rfl
    | cons e es =>
      rw [stripBack_cons₂]
      by_cases h : d = 0
      · rw [if_pos h]
        exact ih
      · rw [if_neg h, stripBack_cons₂, if_neg h]

theorem stripBack_sub {r : List ℤ} : ∀ d ∈ stripBack r, d ∈ r := by
  induction r with
  | nil => simp [stripBack_nil]
  | cons d ds ih =>
    cases ds with
    | nil => simp [stripBack_singleton]
    | cons e es =>
      rw [stripBack_cons₂]
      by_cases h : d = 0
      · rw [if_pos h]
        intro x hx
        exact List.mem_cons_of_mem d (ih x hx)
      · rw [if_neg h]
        intro x hx
        exact hx

theorem stripBack_ne_nil {r : List ℤ} (h : r ≠ []) : stripBack r ≠ [] := by
  induction r with
  | nil => exact absurd rfl h
  | cons d ds ih =>
    cases ds with
    | nil => simp [stripBack_singleton]
    | cons e es =>
      rw [stripBack_cons₂]
      by_cases h0 : d = 0
      · rw [if_pos h0]
        exact ih (by simp)
      · rw [if_neg h0]
        simp

theorem stripBack_headI {r : List ℤ} (h : 1 < (stripBack r).length) :
    (stripBack r).headI ≠ 0 := by
  induction r with
  | nil => simp [stripBack_nil] at h
  | cons d ds ih =>
    cases ds with
    | nil => simp [stripBack_singleton] at h
    | cons e es =>
      rw [stripBack_cons₂] at h ⊢
      by_cases h0 : d = 0
      · rw [if_pos h0] at h ⊢
        exact ih h
      · rw [if_neg h0]
        simpa using h0

theorem stripBack_val (r : List ℤ) : magVal (stripBack r).reverse = magVal r.reverse := by
  induction r with
  | nil => rfl
  | cons d ds ih =>
    cases ds with
    | nil => rfl
    | cons e es =>
      rw [stripBack_cons₂]
      by_cases h0 : d = 0
      · rw [if_pos h0, ih, h0]
        have hc : ((0 : ℤ) :: e :: es).reverse = (e :: es).reverse ++ [0] :=
          List.reverse_cons 0 (e :: es)
        rw [hc, magVal_append]
        simp [magVal]
      · rw [if_neg h0]

theorem headI_reverse_getLastD (l : List ℤ) : l.reverse.getLastD 0 = l.headI := by
  cases l with
  | nil => rfl
  | cons d ds =>
    rw [List.reverse_cons, List.getLastD_concat]
    rfl

theorem rlz_number (x : BigInt) :
    (removeLeadingZero x).number = (stripBack x.number.reverse).reverse := rfl

theorem rlz_isNegative (x : BigInt) :
    (removeLeadingZero x).isNegative =
      if (stripBack x.number.reverse).reverse = [0] then false else x.isNegative := rfl

theorem rlz_magVal (x : BigInt) : magVal (removeLeadingZero x).number = magVal x.number := by
  rw [rlz_number, stripBack_val, List.reverse_reverse]

theorem rlz_val (x : BigInt) : val (removeLeadingZero x) = val x := by
  unfold val
  rw [rlz_magVal, rlz_isNegative]
  by_cases h : (stripBack x.number.reverse).reverse = [0]
  · have hz : magVal x.number = 0 := by
      rw [← rlz_magVal, rlz_number, h]
      rfl
    rw [if_pos h, hz]
    simp
  · rw [if_neg h]

theorem rlz_canonical {x : BigInt} (hr : DigitsInRange x.number) (hne : x.number ≠ []) :
    Canonical (removeLeadingZero x) := by
  have hrev : x.number.reverse ≠ [] := by
    simpa using hne
  have hsne : stripBack x.number.reverse ≠ [] := stripBack_ne_nil hrev
  refine ⟨?_, ?_, ?_, ?_⟩
  · rw [rlz_number]
    simpa using hsne
  · rw [rlz_number]
    intro d hd
    rw [List.mem_reverse] at hd
    have := stripBack_sub d hd
    rw [List.mem_reverse] at this
    exact hr d this
  · rw [rlz_number]
    intro hlen
    rw [List.length_reverse] at hlen
    rw [headI_reverse_getLastD]
    exact stripBack_headI hlen
  · rw [rlz_number, rlz_isNegative]
    intro h
    rw [if_pos h]

theorem rlz_idem (x : BigInt) :
    removeLeadingZero (removeLeadingZero x) = removeLeadingZero x := by
  unfold removeLeadingZero
  simp only [List.reverse_reverse, stripBack_idem]
  by_cases h : (stripBack x.number.reverse).reverse = [0]
  · rw [if_pos h, if_pos h]
  · rw [if_neg h, if_neg h]

/-! ## Magnitude addition -/

theorem carryFlush_spec : ∀ (fuel : ℕ) (c : ℤ), 0 ≤ c → c < 10 ^ fuel →
    magVal (carryFlush fuel c) = c ∧ DigitsInRange (carryFlush fuel c) := by
  intro fuel
  induction fuel with
  | zero =>
    intro c h0 h1
    norm_num at h1
    have hc : c = 0 := by omega
    subst hc
    exact ⟨rfl, by intro d hd; simp [carryFlush] at hd⟩
  | succ fuel ih =>
    intro c h0 h1
    simp only [carryFlush]
    by_cases hc : c = 0
    · subst hc
      simp only [if_pos rfl]
      exact ⟨rfl, by intro d hd; simp at hd⟩
    · rw [if_neg hc]
      have hd := cppDecomp c
      have hm0 := cppMod_nonneg h0
      have hm9 := cppMod_lt h0
      have hq0 := cppDiv_nonneg h0
      have hqlt : cppDiv c 10 < 10 ^ fuel := by
        rw [pow_succ] at h1
        omega
      obtain ⟨ihv, ihr⟩ := ih (cppDiv c 10) hq0 hqlt
      constructor
      · rw [magVal_cons, ihv]
        omega
      · exact digitsInRange_cons_of ⟨hm0, by omega⟩ ihr

theorem natAbs_fit (c : ℤ) (_h0 : 0 ≤ c) : c < 10 ^ (c.natAbs + 1) := by
  have h1 : c ≤ (c.natAbs : ℤ) := Int.le_natAbs
  have h2 : (c.natAbs : ℤ) < 10 ^ c.natAbs := by
    exact_mod_cast Nat.lt_pow_self (by norm_num) c.natAbs
  have h3 : (10 : ℤ) ^ c.natAbs ≤ 10 ^ (c.natAbs + 1) :=
    pow_le_pow_right₀ (by norm_num) (by omega)
  linarith

theorem addTail_spec : ∀ (bs : List ℤ) (c : ℤ), DigitsInRange bs → 0 ≤ c →
    magVal (addTail bs c) = magVal bs + c ∧ DigitsInRange (addTail bs c) := by
  intro bs
  induction bs with
  | nil =>
    intro c hr h0
    obtain ⟨hv, hr2⟩ := carryFlush_spec (c.natAbs + 1) c h0 (natAbs_fit c h0)
    refine ⟨?_, hr2⟩
    rw [magVal_nil]
    simpa [addTail] using hv
  | cons b bs ih =>
    intro c hr h0
    obtain ⟨hb, hbs⟩ := digitsInRange_cons hr
    have hs0 : 0 ≤ c + b := by omega
    have hd := cppDecomp (c + b)
    have hm0 := cppMod_nonneg hs0
    have hm9 := cppMod_lt hs0
    have hq0 := cppDiv_nonneg hs0
    obtain ⟨ihv, ihr⟩ := ih (cppDiv (c + b) 10) hbs hq0
    constructor
    · simp only [addTail, magVal_cons]
      rw [ihv]
      omega
    · simp only [addTail]
      exact digitsInRange_cons_of ⟨hm0, by omega⟩ ihr

theorem addLoop_spec : ∀ (as bs : List ℤ) (c : ℤ),
    DigitsInRange as → DigitsInRange bs → 0 ≤ c →
    magVal (addLoop as bs c) = magVal as + magVal bs + c ∧
      DigitsInRange (addLoop as bs c) := by
  intro as
  induction as with
  | nil =>
    intro bs c hra hrb h0
    obtain ⟨hv, hr⟩ := addTail_spec bs c hrb h0
    simp only [addLoop]
    refine ⟨?_, hr⟩
    rw [hv, magVal_nil]
    ring
  | cons a as ih =>
    intro bs c hra hrb h0
    obtain ⟨ha, has⟩ := digitsInRange_cons hra
    cases bs with
    | nil =>
      obtain ⟨hv, hr⟩ := addTail_spec (a :: as) c hra h0
      simp only [addLoop]
      refine ⟨?_, hr⟩
      rw [hv, magVal_nil]
      ring
    | cons b bs =>
      obtain ⟨hb, hbs⟩ := digitsInRange_cons hrb
      have hs0 : 0 ≤ c + a + b := by omega
      have hd := cppDecomp (c + a + b)
      have hm0 := cppMod_nonneg hs0
      have hm9 := cppMod_lt hs0
      have hq0 := cppDiv_nonneg hs0
      obtain ⟨ihv, ihr⟩ := ih bs (cppDiv (c + a + b) 10) has hbs hq0
      constructor
      · simp only [addLoop, magVal_cons]
        rw [ihv]
        omega
      · simp only [addLoop]
        exact digitsInRange_cons_of ⟨hm0, by omega⟩ ihr

theorem carryFlush_zero (fuel : ℕ) : carryFlush fuel 0 = [] := by
  cases fuel <;> simp [carryFlush]

theorem carryFlush_one (fuel : ℕ) : carryFlush (fuel + 1) 1 = [1] := by
  have h1 : cppMod 1 10 = 1 := by decide
  have h2 : cppDiv 1 10 = 0 := by decide
  simp only [carryFlush, h1, h2, carryFlush_zero]
  norm_num

theorem addTail_len_shape : ∀ (bs : List ℤ) (c : ℤ), DigitsInRange bs →
    (c = 0 ∨ c = 1) →
    (addTail bs c).length = bs.length ∨
      ((addTail bs c).length = bs.length + 1 ∧ LastNonzero (addTail bs c)) := by
  intro bs
  induction bs with
  | nil =>
    intro c _ hc
    rcases hc with rfl | rfl
    · left
      have h : addTail ([] : List ℤ) 0 = [] := by decide
      rw [h]
    · right
      have h : addTail ([] : List ℤ) 1 = [1] := by decide
      rw [h]
      refine ⟨rfl, ?_⟩
      unfold LastNonzero
      decide
  | cons b bs ih =>
    intro c hr hc
    obtain ⟨hb, hbs⟩ := digitsInRange_cons hr
    have hs0 : 0 ≤ c + b := by omega
    have hdc := cppDecomp (c + b)
    have hm0 := cppMod_nonneg hs0
    have hm9 := cppMod_lt hs0
    have hq : cppDiv (c + b) 10 = 0 ∨ cppDiv (c + b) 10 = 1 := by omega
    rcases ih (cppDiv (c + b) 10) hbs hq with h | ⟨hlen, hnz⟩
    · left
      simp only [addTail, List.length_cons, h]
    · right
      constructor
      · simp only [addTail, List.length_cons, hlen]
      · have htne : addTail bs (cppDiv (c + b) 10) ≠ [] := by
          intro he
          rw [he] at hlen
          simp at hlen
        simp only [addTail]
        unfold LastNonzero at hnz ⊢
        rw [List.getLastD_cons, getLastD_default_eq htne _ 0]
        exact hnz

theorem addLoop_len_shape : ∀ (as bs : List ℤ) (c : ℤ),
    DigitsInRange as → DigitsInRange bs → (c = 0 ∨ c = 1) →
    (addLoop as bs c).length = max as.length bs.length ∨
      ((addLoop as bs c).length = max as.length bs.length + 1 ∧
        LastNonzero (addLoop as bs c)) := by
  intro as
  induction as with
  | nil =>
    intro bs c _ hrb hc
    simp only [addLoop, List.length_nil, Nat.zero_max]
    exact addTail_len_shape bs c hrb hc
  | cons a as ih =>
    intro bs c hra hrb hc
    cases bs with
    | nil =>
      simp only [addLoop, List.length_nil, Nat.max_zero]
      exact addTail_len_shape (a :: as) c hra hc
    | cons b bs =>
      obtain ⟨ha, has⟩ := digitsInRange_cons hra
      obtain ⟨hb, hbs⟩ := digitsInRange_cons hrb
      have hs0 : 0 ≤ c + a + b := by omega
      have hdc := cppDecomp (c + a + b)
      have hm0 := cppMod_nonneg hs0
      have hm9 := cppMod_lt hs0
      have hq : cppDiv (c + a + b) 10 = 0 ∨ cppDiv (c + a + b) 10 = 1 := by omega
      rcases ih bs (cppDiv (c + a + b) 10) has hbs hq with h | ⟨hlen, hnz⟩
      · left
        simp only [addLoop, List.length_cons, h]
        omega
      · right
        constructor
        · simp only [addLoop, List.length_cons, hlen]
          omega
        · have htne : addLoop as bs (cppDiv (c + a + b) 10) ≠ [] := by
            intro he
            rw [he] at hlen
            simp at hlen
          simp only [addLoop]
          unfold LastNonzero at hnz ⊢
          rw [List.getLastD_cons, getLastD_default_eq htne _ 0]
          exact hnz

theorem addLoop_canonical {as bs : List ℤ} (ha : CanonDigits as) (hb : CanonDigits bs) :
    CanonDigits (addLoop as bs 0) ∧ magVal (addLoop as bs 0) = magVal as + magVal bs := by
  obtain ⟨hane, har, hasp⟩ := ha
  obtain ⟨hbne, hbr, hbsp⟩ := hb
  obtain ⟨hv, hr⟩ := addLoop_spec as bs 0 har hbr le_rfl
  have hv' : magVal (addLoop as bs 0) = magVal as + magVal bs := by
    rw [hv]
    ring
  have hlena : 0 < as.length := List.length_pos.mpr hane
  have hlenb : 0 < bs.length := List.length_pos.mpr hbne
  refine ⟨⟨?_, hr, ?_⟩, hv'⟩
  · apply List.ne_nil_of_length_pos
    rcases addLoop_len_shape as bs 0 har hbr (Or.inl rfl) with h | ⟨h, _⟩ <;>
      · rw [h]
        omega
  · intro hlen
    rcases addLoop_len_shape as bs 0 har hbr (Or.inl rfl) with h | ⟨h, hnz⟩
    · intro h0
      have hne : addLoop as bs 0 ≠ [] := by
        apply List.ne_nil_of_length_pos
        omega
      have hlt := magVal_last_zero_lt hr hne h0
      rcases Nat.le_total bs.length as.length with hab | hab
      · have hmax : max as.length bs.length = as.length := Nat.max_eq_left hab
        have hla : 2 ≤ as.length := by omega
        have hlow := magVal_lower har (hasp (by omega))
        have hBnn := magVal_nonneg hbr
        rw [h, hmax] at hlt
        rw [hv'] at hlt
        linarith
      · have hmax : max as.length bs.length = bs.length := Nat.max_eq_right hab
        have hlb : 2 ≤ bs.length := by omega
        have hlow := magVal_lower hbr (hbsp (by omega))
        have hAnn := magVal_nonneg har
        rw [h, hmax] at hlt
        rw [hv'] at hlt
        linarith
    · exact hnz

/-! ## Magnitude comparison -/

theorem digitsInRange_reverse {l : List ℤ} (h : DigitsInRange l) :
    DigitsInRange l.reverse :=
  fun d hd => h d (List.mem_reverse.mp hd)

theorem magVal_rev_lt {l : List ℤ} (h : DigitsInRange l) :
    magVal l.reverse < 10 ^ l.length := by
  have := magVal_lt (digitsInRange_reverse h)
  rwa [List.length_reverse] at this

theorem magVal_rev_cons (d : ℤ) (t : List ℤ) :
    magVal (d :: t).reverse = magVal t.reverse + 10 ^ t.length * d := by
  rw [List.reverse_cons, magVal_append, List.length_reverse, magVal_cons, magVal_nil]
  ring

theorem cmpFromMSD_spec : ∀ (r₁ r₂ : List ℤ), r₁.length = r₂.length →
    DigitsInRange r₁ → DigitsInRange r₂ →
    (cmpFromMSD r₁ r₂ = 0 ∧ r₁ = r₂) ∨
    (cmpFromMSD r₁ r₂ = 1 ∧ magVal r₂.reverse < magVal r₁.reverse) ∨
    (cmpFromMSD r₁ r₂ = -1 ∧ magVal r₁.reverse < magVal r₂.reverse) := by
  intro r₁
  induction r₁ with
  | nil =>
    intro r₂ hlen _ _
    cases r₂ with
    | nil => exact Or.inl ⟨rfl, rfl⟩
    | cons d t => simp at hlen
  | cons d₁ t₁ ih =>
    intro r₂ hlen hr₁ hr₂
    cases r₂ with
    | nil => simp at hlen
    | cons d₂ t₂ =>
      obtain ⟨hd₁, ht₁⟩ := digitsInRange_cons hr₁
      obtain ⟨hd₂, ht₂⟩ := digitsInRange_cons hr₂
      have hlen' : t₁.length = t₂.length := by simpa using hlen
      have hv₁ := magVal_rev_cons d₁ t₁
      have hv₂ := magVal_rev_cons d₂ t₂
      rw [← hlen'] at hv₂
      by_cases hd : d₁ = d₂
      · subst hd
        have hcmp : cmpFromMSD (d₁ :: t₁) (d₁ :: t₂) = cmpFromMSD t₁ t₂ := by
          simp [cmpFromMSD]
        rcases ih t₂ hlen' ht₁ ht₂ with ⟨hc, he⟩ | ⟨hc, hv⟩ | ⟨hc, hv⟩
        · exact Or.inl ⟨by rw [hcmp, hc], by rw [he]⟩
        · exact Or.inr (Or.inl ⟨by rw [hcmp, hc], by linarith⟩)
        · exact Or.inr (Or.inr ⟨by rw [hcmp, hc], by linarith⟩)
      · have hcmp : cmpFromMSD (d₁ :: t₁) (d₂ :: t₂) =
            if d₁ > d₂ then 1 else -1 := by
          simp only [cmpFromMSD, ne_eq]
          rw [if_pos hd]
        have hpnn : (0 : ℤ) ≤ 10 ^ t₁.length := by positivity
        have hub₁ := magVal_rev_lt ht₁
        have hub₂ := magVal_rev_lt ht₂
        rw [← hlen'] at hub₂
        have hnn₁ := magVal_nonneg (digitsInRange_reverse ht₁)
        have hnn₂ := magVal_nonneg (digitsInRange_reverse ht₂)
        by_cases hgt : d₁ > d₂
        · refine Or.inr (Or.inl ⟨by rw [hcmp, if_pos hgt], ?_⟩)
          have hmul : 10 ^ t₁.length * (d₂ + 1) ≤ 10 ^ t₁.length * d₁ :=
            mul_le_mul_of_nonneg_left (by omega) hpnn
          nlinarith
        · have hlt : d₂ > d₁ := by omega
          refine Or.inr (Or.inr ⟨by rw [hcmp, if_neg hgt], ?_⟩)
          have hmul : 10 ^ t₁.length * (d₁ + 1) ≤ 10 ^ t₁.length * d₂ :=
            mul_le_mul_of_nonneg_left (by omega) hpnn
          nlinarith

theorem absCmp_spec {x y : BigInt} (hx : CanonDigits x.number)
    (hy : CanonDigits y.number) :
    (absoluteComparison x y = 0 ∧ x.number = y.number) ∨
    (absoluteComparison x y = 1 ∧ magVal y.number < magVal x.number) ∨
    (absoluteComparison x y = -1 ∧ magVal x.number < magVal y.number) := by
  unfold absoluteComparison
  by_cases hlen : x.number.length = y.number.length
  · rw [if_neg (not_not_intro hlen)]
    rcases cmpFromMSD_spec x.number.reverse y.number.reverse
        (by simp [hlen]) (digitsInRange_reverse hx.2.1)
        (digitsInRange_reverse hy.2.1) with ⟨hc, he⟩ | ⟨hc, hv⟩ | ⟨hc, hv⟩
    · exact Or.inl ⟨hc, List.reverse_inj.mp he⟩
    · refine Or.inr (Or.inl ⟨hc, ?_⟩)
      rwa [List.reverse_reverse, List.reverse_reverse] at hv
    · refine Or.inr (Or.inr ⟨hc, ?_⟩)
      rwa [List.reverse_reverse, List.reverse_reverse] at hv
  · rw [if_pos hlen]
    have hlb : 0 < y.number.length := List.length_pos.mpr hy.1
    have hla : 0 < x.number.length := List.length_pos.mpr hx.1
    by_cases hgt : x.number.length > y.number.length
    · rw [if_pos hgt]
      refine Or.inr (Or.inl ⟨rfl, ?_⟩)
      have hlow := magVal_lower hx.2.1 (hx.2.2 (by omega))
      have hup := magVal_lt hy.2.1
      have hpow : (10 : ℤ) ^ y.number.length ≤ 10 ^ (x.number.length - 1) :=
        pow_le_pow_right₀ (by norm_num) (by omega)
      linarith
    · rw [if_neg hgt]
      refine Or.inr (Or.inr ⟨rfl, ?_⟩)
      have hlow := magVal_lower hy.2.1 (hy.2.2 (by omega))
      have hup := magVal_lt hx.2.1
      have hpow : (10 : ℤ) ^ x.number.length ≤ 10 ^ (y.number.length - 1) :=
        pow_le_pow_right₀ (by norm_num) (by omega)
      linarith

/-! ## Magnitude subtraction -/

theorem subLoop_spec : ∀ (as bs : List ℤ) (borrow : ℤ),
    DigitsInRange as → DigitsInRange bs → (borrow = 0 ∨ borrow = 1) →
    bs.length ≤ as.length → magVal bs + borrow ≤ magVal as →
    magVal (subLoop as bs borrow) = magVal as - magVal bs - borrow ∧
      DigitsInRange (subLoop as bs borrow) ∧
      (subLoop as bs borrow).length = as.length := by
  intro as
  induction as with
  | nil =>
    intro bs borrow _ hrb hbw hlen hle
    have hbs : bs = [] := List.eq_nil_of_length_eq_zero (by simpa using hlen)
    subst hbs
    rw [magVal_nil] at hle
    have hb0 : borrow = 0 := by omega
    subst hb0
    exact ⟨by simp [subLoop, magVal], by intro d hd; simp [subLoop] at hd, rfl⟩
  | cons a as ih =>
    intro bs borrow hra hrb hbw hlen hle
    obtain ⟨ha, has⟩ := digitsInRange_cons hra
    have hAnn := magVal_nonneg has
    cases bs with
    | nil =>
      rw [magVal_nil] at hle
      rw [magVal_cons] at hle
      by_cases hneg : a - borrow < 0
      · have hpre : magVal ([] : List ℤ) + 1 ≤ magVal as := by
          rw [magVal_nil]
          omega
        obtain ⟨iv, ir, il⟩ := ih [] 1 has hrb (Or.inr rfl) (by simp) hpre
        rw [magVal_nil] at iv
        refine ⟨?_, ?_, ?_⟩
        · simp only [subLoop, if_pos hneg, magVal_cons, magVal_nil]
          rw [iv]
          omega
        · simp only [subLoop, if_pos hneg]
          exact digitsInRange_cons_of ⟨by omega, by omega⟩ ir
        · simp only [subLoop, if_pos hneg, List.length_cons, il]
      · have hpre : magVal ([] : List ℤ) + 0 ≤ magVal as := by
          rw [magVal_nil]
          omega
        obtain ⟨iv, ir, il⟩ := ih [] 0 has hrb (Or.inl rfl) (by simp) hpre
        rw [magVal_nil] at iv
        refine ⟨?_, ?_, ?_⟩
        · simp only [subLoop, if_neg hneg, magVal_cons, magVal_nil]
          rw [iv]
          omega
        · simp only [subLoop, if_neg hneg]
          exact digitsInRange_cons_of ⟨by omega, by omega⟩ ir
        · simp only [subLoop, if_neg hneg, List.length_cons, il]
    | cons b bs =>
      obtain ⟨hb, hbs⟩ := digitsInRange_cons hrb
      have hBnn := magVal_nonneg hbs
      rw [magVal_cons, magVal_cons] at hle
      have hlen' : bs.length ≤ as.length := by simpa using hlen
      by_cases hneg : a - b - borrow < 0
      · have hpre : magVal bs + 1 ≤ magVal as := by omega
        obtain ⟨iv, ir, il⟩ := ih bs 1 has hbs (Or.inr rfl) hlen' hpre
        refine ⟨?_, ?_, ?_⟩
        · simp only [subLoop, if_pos hneg, magVal_cons]
          rw [iv]
          omega
        · simp only [subLoop, if_pos hneg]
          exact digitsInRange_cons_of ⟨by omega, by omega⟩ ir
        · simp only [subLoop, if_pos hneg, List.length_cons, il]
      · have hpre : magVal bs + 0 ≤ magVal as := by omega
        obtain ⟨iv, ir, il⟩ := ih bs 0 has hbs (Or.inl rfl) hlen' hpre
        refine ⟨?_, ?_, ?_⟩
        · simp only [subLoop, if_neg hneg, magVal_cons]
          rw [iv]
          omega
        · simp only [subLoop, if_neg hneg]
          exact digitsInRange_cons_of ⟨by omega, by omega⟩ ir
        · simp only [subLoop, if_neg hneg, List.length_cons, il]

theorem val_mk (n : List ℤ) (s : Bool) :
    val ⟨n, s⟩ = if s then -magVal n else magVal n := rfl

theorem rlz_false_sign (l : List ℤ) :
    (removeLeadingZero ⟨l, false⟩).isNegative = false := by
  rw [rlz_isNegative]
  split <;> rfl

theorem absoluteSubtract_spec {x y : BigInt} (hx : CanonDigits x.number)
    (hy : CanonDigits y.number) (hle : magVal y.number ≤ magVal x.number) :
    Canonical (absoluteSubtract x y) ∧
    magVal (absoluteSubtract x y).number = magVal x.number - magVal y.number ∧
    (absoluteSubtract x y).isNegative = false := by
  have hxp : 0 < x.number.length := List.length_pos.mpr hx.1
  have hlen : y.number.length ≤ x.number.length := by
    by_contra hgt
    push_neg at hgt
    have h1 := magVal_lower hy.2.1 (hy.2.2 (by omega))
    have h2 := magVal_lt hx.2.1
    have hpow : (10 : ℤ) ^ x.number.length ≤ 10 ^ (y.number.length - 1) :=
      pow_le_pow_right₀ (by norm_num) (by omega)
    linarith
  obtain ⟨sv, sr, sl⟩ := subLoop_spec x.number y.number 0 hx.2.1 hy.2.1
    (Or.inl rfl) hlen (by omega)
  have hne : subLoop x.number y.number 0 ≠ [] := by
    apply List.ne_nil_of_length_pos
    omega
  refine ⟨@rlz_canonical ⟨subLoop x.number y.number 0, false⟩ sr hne, ?_, ?_⟩
  · have := rlz_magVal ⟨subLoop x.number y.number 0, false⟩
    unfold absoluteSubtract
    rw [this, sv]
    omega
  · exact rlz_false_sign _

/-! ## Signed addition (`operator+`) -/

theorem addBI_same_sign {x y : BigInt} (hx : Canonical x) (hy : Canonical y)
    (h : x.isNegative = y.isNegative) :
    val (addBI x y) = val x + val y ∧ Canonical (addBI x y) := by
  obtain ⟨hcanon, hval⟩ := addLoop_canonical
    ⟨hx.1, hx.2.1, hx.2.2.1⟩ ⟨hy.1, hy.2.1, hy.2.2.1⟩
  have hres : addBI x y = ⟨addLoop x.number y.number 0, x.isNegative⟩ := by
    unfold addBI
    rw [if_pos h]
    rfl
  rw [hres]
  constructor
  · rw [val_mk]
    cases hsx : x.isNegative with
    | false =>
      have hsy : y.isNegative = false := by rw [← h, hsx]
      simp [val, hsx, hsy, hval]
    | true =>
      have hsy : y.isNegative = true := by rw [← h, hsx]
      simp [val, hsx, hsy, hval]
      ring
  · refine ⟨hcanon.1, hcanon.2.1, hcanon.2.2, ?_⟩
    intro h0
    have hz : magVal (addLoop x.number y.number 0) = 0 := by
      simp only at h0
      rw [h0]
      rfl
    rw [hval] at hz
    have hA := magVal_nonneg hx.2.1
    have hB := magVal_nonneg hy.2.1
    have hx0 : x.number = [0] :=
      (canonDigits_zero ⟨hx.1, hx.2.1, hx.2.2.1⟩).mp (by omega)
    exact hx.2.2.2 hx0

theorem addBI_spec {x y : BigInt} (hx : Canonical x) (hy : Canonical y) :
    val (addBI x y) = val x + val y ∧
    (x.isNegative = true → y.isNegative = false →
      magVal x.number = magVal y.number →
      addBI x y = ⟨[0], true⟩) ∧
    (¬(x.isNegative = true ∧ y.isNegative = false ∧
        magVal x.number = magVal y.number) → Canonical (addBI x y)) := by
  by_cases h : x.isNegative = y.isNegative
  · obtain ⟨hv, hc⟩ := addBI_same_sign hx hy h
    refine ⟨hv, ?_, fun _ => hc⟩
    intro hsx hsy _
    rw [hsx, hsy] at h
    exact absurd h (by simp)
  · have hcx : CanonDigits x.number := ⟨hx.1, hx.2.1, hx.2.2.1⟩
    have hcy : CanonDigits y.number := ⟨hy.1, hy.2.1, hy.2.2.1⟩
    rcases absCmp_spec hcx hcy with ⟨hc, he⟩ | ⟨hc, hv⟩ | ⟨hc, hv⟩
    · -- equal magnitudes: result is ⟨[0], x.isNegative⟩
      have hmm : magVal x.number = magVal y.number := by rw [he]
      obtain ⟨dc, dv, ds⟩ := absoluteSubtract_spec hcx hcy (le_of_eq hmm.symm)
      have hzero : (absoluteSubtract x y).number = [0] :=
        (canonDigits_zero ⟨dc.1, dc.2.1, dc.2.2.1⟩).mp (by omega)
      have hres : addBI x y = ⟨[0], x.isNegative⟩ := by
        unfold addBI
        rw [if_neg h, if_pos (by rw [hc])]
        simp only
        rw [hzero]
      rw [hres]
      refine ⟨?_, ?_, ?_⟩
      · rw [val_mk]
        unfold val
        cases hsx : x.isNegative <;> cases hsy : y.isNegative <;>
          simp_all [magVal]
      · intro hsx _ _
        rw [hsx]
      · intro hne
        cases hsx : x.isNegative with
        | false => exact ⟨by simp, by intro d hd; simp at hd; omega, by intro hl; simp at hl, fun _ => rfl⟩
        | true =>
          exfalso
          apply hne
          refine ⟨hsx, ?_, hmm⟩
          cases hsy : y.isNegative with
          | false => rfl
          | true => rw [hsx, hsy] at h; exact absurd rfl h
    · -- |x| > |y|: result has x's sign and magnitude |x| - |y|
      obtain ⟨dc, dv, ds⟩ := absoluteSubtract_spec hcx hcy (le_of_lt hv)
      have hnz : (absoluteSubtract x y).number ≠ [0] := by
        intro h0
        have := (canonDigits_zero ⟨dc.1, dc.2.1, dc.2.2.1⟩).mpr h0
        omega
      have hres : addBI x y = ⟨(absoluteSubtract x y).number, x.isNegative⟩ := by
        unfold addBI
        rw [if_neg h, if_pos (by rw [hc]; norm_num)]
      rw [hres]
      refine ⟨?_, ?_, ?_⟩
      · rw [val_mk]
        unfold val
        cases hsx : x.isNegative <;> cases hsy : y.isNegative <;>
            rw [hsx, hsy] at h <;> try exact absurd rfl h
        · simp only [if_true, if_false, Bool.false_eq_true, reduceIte]
          omega
        · simp only [if_true, if_false, Bool.false_eq_true, reduceIte]
          omega
      · intro _ _ hmm
        omega
      · intro _
        exact ⟨dc.1, dc.2.1, dc.2.2.1, fun h0 => absurd h0 hnz⟩
    · -- |x| < |y|: result has y's sign and magnitude |y| - |x|
      obtain ⟨dc, dv, ds⟩ := absoluteSubtract_spec hcy hcx (le_of_lt hv)
      have hnz : (absoluteSubtract y x).number ≠ [0] := by
        intro h0
        have := (canonDigits_zero ⟨dc.1, dc.2.1, dc.2.2.1⟩).mpr h0
        omega
      have hres : addBI x y = ⟨(absoluteSubtract y x).number, y.isNegative⟩ := by
        unfold addBI
        rw [if_neg h, if_neg (by rw [hc]; norm_num)]
      rw [hres]
      refine ⟨?_, ?_, ?_⟩
      · rw [val_mk]
        unfold val
        cases hsx : x.isNegative <;> cases hsy : y.isNegative <;>
            rw [hsx, hsy] at h <;> try exact absurd rfl h
        · simp only [if_true, if_false, Bool.false_eq_true, reduceIte]
          omega
        · simp only [if_true, if_false, Bool.false_eq_true, reduceIte]
          omega
      · intro _ _ hmm
        omega
      · intro _
        exact ⟨dc.1, dc.2.1, dc.2.2.1, fun h0 => absurd h0 hnz⟩

/-! ## Negation, subtraction, equality -/

theorem negBI_spec {x : BigInt} (hx : Canonical x) :
    Canonical (negBI x) ∧ val (negBI x) = -val x ∧ (negBI x).number = x.number := by
  unfold negBI
  by_cases h : x.number.headI = 0 ∧ x.number.length = 1
  · have hx0 : x.number = [0] := by
      obtain ⟨h1, h2⟩ := h
      match hl : x.number, h2 with
      | [d], _ =>
        rw [hl] at h1
        simp at h1
        rw [h1]
    rw [if_pos h]
    refine ⟨⟨hx.1, hx.2.1, hx.2.2.1, fun _ => rfl⟩, ?_, rfl⟩
    have hs := hx.2.2.2 hx0
    rw [val_mk]
    unfold val
    rw [hs, hx0]
    simp [magVal]
  · rw [if_neg h]
    have hnz : x.number ≠ [0] := by
      intro h0
      apply h
      rw [h0]
      exact ⟨rfl, rfl⟩
    refine ⟨⟨hx.1, hx.2.1, hx.2.2.1, fun h0 => absurd h0 hnz⟩, ?_, rfl⟩
    rw [val_mk]
    unfold val
    cases hs : x.isNegative <;> simp

theorem subBI_spec {x y : BigInt} (hx : Canonical x) (hy : Canonical y) :
    val (subBI x y) = val x - val y ∧
    (¬(x.isNegative = true ∧ (negBI y).isNegative = false ∧
        magVal x.number = magVal y.number) → Canonical (subBI x y)) := by
  obtain ⟨hnc, hnv, hnn⟩ := negBI_spec hy
  obtain ⟨hav, _, hac⟩ := addBI_spec hx hnc
  constructor
  · unfold subBI
    rw [hav, hnv]
    ring
  · intro hcond
    apply hac
    rw [hnn]
    exact hcond

theorem eqBI_eq {x y : BigInt} : eqBI x y = true ↔ x = y := by
  cases x with
  | mk nx sx =>
    cases y with
    | mk ny sy =>
      unfold eqBI
      simp only [Bool.and_eq_true, beq_iff_eq, BigInt.mk.injEq]

theorem eqBI_refl (x : BigInt) : eqBI x x = true := eqBI_eq.mpr rfl

/-! ## Ordering -/

theorem mag_pos_of_neg {x : BigInt} (hx : Canonical x) (hs : x.isNegative = true) :
    0 < magVal x.number := by
  have hnn := magVal_nonneg hx.2.1
  rcases eq_or_lt_of_le hnn with h0 | h
  · exfalso
    have hx0 : x.number = [0] :=
      (canonDigits_zero ⟨hx.1, hx.2.1, hx.2.2.1⟩).mp h0.symm
    rw [hx.2.2.2 hx0] at hs
    exact Bool.false_ne_true hs
  · exact h

theorem ltBI_signs_differ {x y : BigInt} (h : x.isNegative ≠ y.isNegative) :
    ltBI x y = x.isNegative := by
  unfold ltBI
  rw [if_pos h]

theorem ltBI_both_neg {x y : BigInt} (hx : Canonical x) (hy : Canonical y)
    (hsx : x.isNegative = true) (hsy : y.isNegative = true) :
    (ltBI x y = true ↔ magVal y.number < magVal x.number) := by
  unfold ltBI
  rw [if_neg (by rw [hsx, hsy]; simp), if_pos hsx]
  simp only [decide_eq_true_eq]
  rcases absCmp_spec ⟨hx.1, hx.2.1, hx.2.2.1⟩ ⟨hy.1, hy.2.1, hy.2.2.1⟩ with
    ⟨hc, he⟩ | ⟨hc, hv⟩ | ⟨hc, hv⟩ <;> rw [hc]
  · have hm : magVal x.number = magVal y.number := by rw [he]
    constructor
    · intro h0
      norm_num at h0
    · intro h0
      omega
  · constructor
    · intro _
      exact hv
    · intro _
      norm_num
  · constructor
    · intro h0
      norm_num at h0
    · intro h0
      omega

theorem ltBI_both_nonneg {x y : BigInt} (hx : Canonical x) (hy : Canonical y)
    (hsx : x.isNegative = false) (hsy : y.isNegative = false) :
    (ltBI x y = true ↔ magVal x.number < magVal y.number) := by
  unfold ltBI
  rw [if_neg (by rw [hsx, hsy]; simp), if_neg (by rw [hsx]; simp)]
  simp only [decide_eq_true_eq]
  rcases absCmp_spec ⟨hx.1, hx.2.1, hx.2.2.1⟩ ⟨hy.1, hy.2.1, hy.2.2.1⟩ with
    ⟨hc, he⟩ | ⟨hc, hv⟩ | ⟨hc, hv⟩ <;> rw [hc]
  · have hm : magVal x.number = magVal y.number := by rw [he]
    constructor
    · intro h0
      norm_num at h0
    · intro h0
      omega
  · constructor
    · intro h0
      norm_num at h0
    · intro h0
      omega
  · constructor
    · intro _
      exact hv
    · intro _
      norm_num

theorem ltBI_iff_val {x y : BigInt} (hx : Canonical x) (hy : Canonical y) :
    ltBI x y = true ↔ val x < val y := by
  have hxnn := magVal_nonneg hx.2.1
  have hynn := magVal_nonneg hy.2.1
  cases hsx : x.isNegative <;> cases hsy : y.isNegative
  · rw [ltBI_both_nonneg hx hy hsx hsy]
    unfold val
    rw [hsx, hsy]
    simp
  · have hyp := mag_pos_of_neg hy hsy
    rw [ltBI_signs_differ (by rw [hsx, hsy]; simp), hsx]
    unfold val
    rw [hsx, hsy]
    simp only [Bool.false_eq_true, if_false, if_true, reduceIte]
    constructor
    · intro h0
      exact h0.elim
    · intro h0
      omega
  · have hxp := mag_pos_of_neg hx hsx
    rw [ltBI_signs_differ (by rw [hsx, hsy]; simp), hsx]
    unfold val
    rw [hsx, hsy]
    simp only [Bool.false_eq_true, if_false, if_true, reduceIte]
    constructor
    · intro _
      omega
    · intro _
      trivial
  · rw [ltBI_both_neg hx hy hsx hsy]
    unfold val
    rw [hsx, hsy]
    simp only [if_true, reduceIte]
    omega

theorem eqBI_iff_val {x y : BigInt} (hx : Canonical x) (hy : Canonical y) :
    eqBI x y = true ↔ val x = val y := by
  constructor
  · intro h
    rw [eqBI_eq.mp h]
  · intro h
    exact eqBI_eq.mpr (canonical_val_inj hx hy h)

/-! ## Multiplication -/

theorem innerLoop_spec : ∀ (acc bs : List ℤ) (d c : ℤ),
    0 ≤ d → DigitsInRange bs → 0 ≤ c → DigitsInRange acc →
    d * magVal bs + c + magVal acc < 10 ^ acc.length →
    magVal (innerLoop d bs c acc) = magVal acc + d * magVal bs + c ∧
      DigitsInRange (innerLoop d bs c acc) ∧
      (innerLoop d bs c acc).length = acc.length := by
  intro acc
  induction acc with
  | nil =>
    intro bs d c hd hbs hc hacc hfit
    have hB := magVal_nonneg hbs
    have hdB : 0 ≤ d * magVal bs := mul_nonneg hd hB
    rw [magVal_nil] at hfit
    norm_num at hfit
    have hc0 : c = 0 := by linarith
    subst hc0
    have hres : innerLoop d bs 0 ([] : List ℤ) = [] := by
      cases bs <;> rfl
    rw [hres]
    refine ⟨?_, hacc, rfl⟩
    rw [magVal_nil]
    linarith
  | cons a acc2 ih =>
    intro bs d c hd hbs hc hacc hfit
    obtain ⟨ha, hacc2⟩ := digitsInRange_cons hacc
    have hA2nn := magVal_nonneg hacc2
    have hB := magVal_nonneg hbs
    cases bs with
    | nil =>
      by_cases hc0 : c = 0
      · subst hc0
        have hres : innerLoop d [] 0 (a :: acc2) = a :: acc2 := rfl
        rw [hres]
        refine ⟨?_, hacc, rfl⟩
        rw [magVal_nil]
        ring
      · have hcur0 : 0 ≤ a + c := by omega
        have hdc := cppDecomp (a + c)
        have hm0 := cppMod_nonneg hcur0
        have hm9 := cppMod_lt hcur0
        have hq0 := cppDiv_nonneg hcur0
        have hfit' : d * magVal ([] : List ℤ) + cppDiv (a + c) 10 + magVal acc2 <
            10 ^ acc2.length := by
          rw [magVal_cons, magVal_nil, mul_zero, List.length_cons, pow_succ] at hfit
          rw [magVal_nil, mul_zero]
          omega
        obtain ⟨iv, ir, il⟩ := ih [] d (cppDiv (a + c) 10) hd hbs hq0 hacc2 hfit'
        rw [magVal_nil, mul_zero] at iv
        have hres : innerLoop d [] c (a :: acc2) =
            cppMod (a + c) 10 :: innerLoop d [] (cppDiv (a + c) 10) acc2 := by
          simp only [innerLoop, if_neg hc0]
        rw [hres]
        refine ⟨?_, ?_, ?_⟩
        · rw [magVal_cons, magVal_cons, iv, magVal_nil, mul_zero]
          omega
        · exact digitsInRange_cons_of ⟨hm0, by omega⟩ ir
        · rw [List.length_cons, List.length_cons, il]
    | cons b bs' =>
      obtain ⟨hb, hbs'⟩ := digitsInRange_cons hbs
      have hB' := magVal_nonneg hbs'
      have hdb : 0 ≤ d * b := mul_nonneg hd hb.1
      have hcur0 : 0 ≤ a + d * b + c := by omega
      have hdc := cppDecomp (a + d * b + c)
      have hm0 := cppMod_nonneg hcur0
      have hm9 := cppMod_lt hcur0
      have hq0 := cppDiv_nonneg hcur0
      have hexp : d * magVal (b :: bs') = d * b + 10 * (d * magVal bs') := by
        rw [magVal_cons]
        ring
      have hfit' : d * magVal bs' + cppDiv (a + d * b + c) 10 + magVal acc2 <
          10 ^ acc2.length := by
        rw [hexp] at hfit
        rw [magVal_cons, List.length_cons, pow_succ] at hfit
        omega
      obtain ⟨iv, ir, il⟩ := ih bs' d (cppDiv (a + d * b + c) 10) hd hbs' hq0 hacc2 hfit'
      have hres : innerLoop d (b :: bs') c (a :: acc2) =
          cppMod (a + d * b + c) 10 ::
            innerLoop d bs' (cppDiv (a + d * b + c) 10) acc2 := by
        simp only [innerLoop]
      rw [hres]
      refine ⟨?_, ?_, ?_⟩
      · rw [magVal_cons, iv, hexp]
        rw [magVal_cons]
        omega
      · exact digitsInRange_cons_of ⟨hm0, by omega⟩ ir
      · rw [List.length_cons, List.length_cons, il]

theorem outerLoop_spec : ∀ (as buf bs : List ℤ),
    DigitsInRange as → DigitsInRange bs → DigitsInRange buf →
    magVal buf + magVal as * magVal bs < 10 ^ buf.length →
    magVal (outerLoop bs as buf) = magVal buf + magVal as * magVal bs ∧
      DigitsInRange (outerLoop bs as buf) ∧
      (outerLoop bs as buf).length = buf.length := by
  intro as
  induction as with
  | nil =>
    intro buf bs _ _ hbuf _
    simp only [outerLoop, magVal_nil]
    exact ⟨by ring, hbuf, trivial⟩
  | cons d ds ih =>
    intro buf bs hds hbs hbuf hfit
    obtain ⟨hd, hds'⟩ := digitsInRange_cons hds
    have hB := magVal_nonneg hbs
    have hbufnn := magVal_nonneg hbuf
    have hdsnn := magVal_nonneg hds'
    have hexp : magVal (d :: ds) * magVal bs =
        d * magVal bs + 10 * (magVal ds * magVal bs) := by
      rw [magVal_cons]
      ring
    have hdsB : 0 ≤ magVal ds * magVal bs := mul_nonneg hdsnn hB
    have hfit_inner : d * magVal bs + 0 + magVal buf < 10 ^ buf.length := by
      rw [hexp] at hfit
      omega
    obtain ⟨iv, ir, il⟩ := innerLoop_spec buf bs d 0 hd.1 hbs le_rfl hbuf hfit_inner
    cases hinner : innerLoop d bs 0 buf with
    | nil =>
      have hbufnil : buf = [] := by
        apply List.eq_nil_of_length_eq_zero
        rw [← il, hinner]
        rfl
      subst hbufnil
      rw [magVal_nil] at hfit
      norm_num at hfit
      have hABnn : 0 ≤ magVal (d :: ds) * magVal bs :=
        mul_nonneg (magVal_nonneg hds) hB
      have hAB0 : magVal (d :: ds) * magVal bs = 0 := by linarith
      simp only [outerLoop, hinner]
      refine ⟨?_, by intro e he; simp at he, trivial⟩
      rw [hAB0]
      norm_num
    | cons h t =>
      have hlen : buf.length = t.length + 1 := by
        rw [← il, hinner, List.length_cons]
      have hir : DigitsInRange (h :: t) := by
        rw [← hinner]
        exact ir
      obtain ⟨hh, ht⟩ := digitsInRange_cons hir
      have hivt : h + 10 * magVal t = magVal buf + d * magVal bs := by
        have hiv := iv
        rw [hinner, magVal_cons] at hiv
        linarith
      have htnn := magVal_nonneg ht
      have hfit_t : magVal t + magVal ds * magVal bs < 10 ^ t.length := by
        have hpow : (10 : ℤ) ^ buf.length = 10 * 10 ^ t.length := by
          rw [hlen, pow_succ]
          ring
        rw [hexp, hpow] at hfit
        omega
      obtain ⟨ov, orr, ol⟩ := ih t bs hds' hbs ht hfit_t
      refine ⟨?_, ?_, ?_⟩
      · simp only [outerLoop, hinner]
        rw [magVal_cons, ov, hexp]
        omega
      · simp only [outerLoop, hinner]
        exact digitsInRange_cons_of hh orr
      · simp only [outerLoop, hinner, List.length_cons, ol]
        omega

theorem magVal_replicate (n : ℕ) : magVal (List.replicate n 0) = 0 := by
  induction n with
  | zero => rfl
  | succ n ih => rw [List.replicate_succ, magVal_cons, ih]; ring

theorem digitsInRange_replicate (n : ℕ) : DigitsInRange (List.replicate n 0) := by
  intro d hd
  have := List.eq_of_mem_replicate hd
  omega

theorem mulBI_spec {x y : BigInt} (hx : Canonical x) (hy : Canonical y) :
    val (mulBI x y) = val x * val y ∧ Canonical (mulBI x y) ∧
    ((mulBI x y).isNegative = true ↔
      (x.isNegative ≠ y.isNegative ∧ magVal x.number ≠ 0 ∧ magVal y.number ≠ 0)) := by
  have hA := magVal_nonneg hx.2.1
  have hB := magVal_nonneg hy.2.1
  have hAlt := magVal_lt hx.2.1
  have hBlt := magVal_lt hy.2.1
  have hxl : 0 < x.number.length := List.length_pos.mpr hx.1
  have hbufl : (List.replicate (x.number.length + y.number.length) (0 : ℤ)).length =
      x.number.length + y.number.length := List.length_replicate _ _
  have hfit : magVal (List.replicate (x.number.length + y.number.length) (0 : ℤ)) +
      magVal x.number * magVal y.number <
      10 ^ (List.replicate (x.number.length + y.number.length) (0 : ℤ)).length := by
    rw [magVal_replicate, hbufl, zero_add, pow_add]
    exact mul_lt_mul'' hAlt hBlt hA hB
  obtain ⟨ov, orr, ol⟩ := outerLoop_spec x.number
    (List.replicate (x.number.length + y.number.length) 0) y.number
    hx.2.1 hy.2.1 (digitsInRange_replicate _) hfit
  rw [magVal_replicate, zero_add] at ov
  rw [hbufl] at ol
  have hresne : outerLoop y.number x.number
      (List.replicate (x.number.length + y.number.length) 0) ≠ [] := by
    apply List.ne_nil_of_length_pos
    omega
  have hmul : mulBI x y = removeLeadingZero
      ⟨outerLoop y.number x.number
        (List.replicate (x.number.length + y.number.length) 0),
       x.isNegative != y.isNegative⟩ := rfl
  have hcanon : Canonical (mulBI x y) := by
    rw [hmul]
    exact rlz_canonical orr hresne
  have hval : magVal (mulBI x y).number = magVal x.number * magVal y.number := by
    rw [hmul, rlz_magVal]
    simp only
    rw [ov]
  have hzero_iff : (mulBI x y).number = [0] ↔
      magVal x.number * magVal y.number = 0 := by
    constructor
    · intro h0
      rw [← hval, h0]
      rfl
    · intro h0
      exact (canonDigits_zero ⟨hcanon.1, hcanon.2.1, hcanon.2.2.1⟩).mp (by rw [hval, h0])
  have hsign : (mulBI x y).isNegative =
      if (mulBI x y).number = [0] then false else (x.isNegative != y.isNegative) := by
    rw [hmul, rlz_isNegative]
    rfl
  refine ⟨?_, hcanon, ?_⟩
  · unfold val
    rw [hval, hsign]
    by_cases h0 : (mulBI x y).number = [0]
    · rw [if_pos h0]
      have hAB0 : magVal x.number * magVal y.number = 0 := hzero_iff.mp h0
      simp only [Bool.false_eq_true, if_false, reduceIte]
      rw [hAB0]
      rcases mul_eq_zero.mp hAB0 with hA0 | hB0
      · simp [hA0]
      · simp [hB0]
    · rw [if_neg h0]
      cases hsx : x.isNegative <;> cases hsy : y.isNegative <;> simp
  · rw [hsign]
    by_cases h0 : (mulBI x y).number = [0]
    · rw [if_pos h0]
      have hAB0 : magVal x.number * magVal y.number = 0 := hzero_iff.mp h0
      rcases mul_eq_zero.mp hAB0 with hA0 | hB0 <;>
      · constructor
        · intro hf
          exact absurd hf (by simp)
        · intro ⟨_, hxnz, hynz⟩
          first
            | exact absurd hA0 hxnz
            | exact absurd hB0 hynz
    · rw [if_neg h0]
      have hABnz : magVal x.number * magVal y.number ≠ 0 := fun hz =>
        h0 (hzero_iff.mpr hz)
      constructor
      · intro hb
        refine ⟨?_, ?_, ?_⟩
        · intro hss
          rw [hss] at hb
          simp at hb
        · intro hz
          exact hABnz (by rw [hz]; ring)
        · intro hz
          exact hABnz (by rw [hz]; ring)
      · intro ⟨hss, _, _⟩
        cases hsx : x.isNegative <;> cases hsy : y.isNegative <;>
          rw [hsx, hsy] at hss <;> simp_all

/-! ## Construction from a 64-bit integer -/

theorem intDigitsAux_spec : ∀ (fuel : ℕ) (i : ℤ), 0 ≤ i → i < 10 ^ (fuel + 1) →
    magVal (intDigitsAux fuel i) = i ∧ DigitsInRange (intDigitsAux fuel i) ∧
      intDigitsAux fuel i ≠ [] ∧ (0 < i → LastNonzero (intDigitsAux fuel i)) := by
  intro fuel
  induction fuel with
  | zero =>
    intro i h0 h1
    norm_num at h1
    have hm : cppMod i 10 = i := by
      unfold cppMod
      rw [Int.tmod_eq_emod h0 (by norm_num)]
      exact Int.emod_eq_of_lt h0 h1
    refine ⟨?_, ?_, by simp [intDigitsAux], ?_⟩
    · simp [intDigitsAux, magVal, hm]
    · intro d hd
      simp [intDigitsAux, hm] at hd
      omega
    · intro hpos
      unfold LastNonzero
      simp [intDigitsAux, hm]
      omega
  | succ fuel ih =>
    intro i h0 h1
    have hdc := cppDecomp i
    have hm0 := cppMod_nonneg h0
    have hm9 := cppMod_lt h0
    have hq0 := cppDiv_nonneg h0
    by_cases hj : cppDiv i 10 = 0
    · have hi : cppMod i 10 = i := by omega
      have hres : intDigitsAux (fuel + 1) i = [cppMod i 10] := by
        simp only [intDigitsAux, if_pos hj]
      rw [hres, hi]
      refine ⟨by simp [magVal], ?_, by simp, ?_⟩
      · intro d hd
        simp at hd
        omega
      · intro hpos
        unfold LastNonzero
        simp
        omega
    · have hqlt : cppDiv i 10 < 10 ^ (fuel + 1) := by
        rw [pow_succ] at h1
        omega
      obtain ⟨iv, ir, ine, ilast⟩ := ih (cppDiv i 10) hq0 hqlt
      have hres : intDigitsAux (fuel + 1) i =
          cppMod i 10 :: intDigitsAux fuel (cppDiv i 10) := by
        simp only [intDigitsAux, if_neg hj]
      rw [hres]
      refine ⟨?_, ?_, by simp, ?_⟩
      · rw [magVal_cons, iv]
        omega
      · exact digitsInRange_cons_of ⟨hm0, by omega⟩ ir
      · intro _
        unfold LastNonzero at ilast ⊢
        rw [List.getLastD_cons, getLastD_default_eq ine _ 0]
        exact ilast (by omega)

theorem wrap64_eq {m : ℤ} (h1 : -(2 ^ 63) ≤ m) (h2 : m < 2 ^ 63) : wrap64 m = m := by
  unfold wrap64
  have hp : (2 : ℤ) ^ 63 = 9223372036854775808 := by norm_num
  have hq : (2 : ℤ) ^ 64 = 18446744073709551616 := by norm_num
  rw [hp] at h1 h2
  rw [hp, hq]
  rw [Int.emod_eq_of_lt (by omega) (by omega)]
  ring

theorem mkInt64_spec {n : ℤ} (h1 : -(2 ^ 63) < n) (h2 : n < 2 ^ 63) :
    val (mkInt64 n) = n ∧ Canonical (mkInt64 n) := by
  have hp : (2 : ℤ) ^ 63 = 9223372036854775808 := by norm_num
  rw [hp] at h1 h2
  have hm_def : cppAbs64 n = if n < 0 then -n else n := by
    unfold cppAbs64
    apply wrap64_eq <;> rw [hp] <;> split <;> omega
  by_cases hn : n = 0
  · subst hn
    constructor
    · decide
    · decide
  · have hmpos : 0 < cppAbs64 n := by
      rw [hm_def]
      split <;> omega
    obtain ⟨iv, ir, ine, ilast⟩ := intDigitsAux_spec (cppAbs64 n).natAbs (cppAbs64 n)
      (le_of_lt hmpos) (natAbs_fit _ (le_of_lt hmpos))
    have hds : mkInt64 n = ⟨intDigitsAux (cppAbs64 n).natAbs (cppAbs64 n),
        decide (n < 0)⟩ := by
      simp only [mkInt64, intDigits]
      rw [if_neg ine]
    constructor
    · rw [hds, val_mk]
      by_cases hneg : n < 0
      · rw [iv, hm_def]
        simp [hneg]
      · rw [iv, hm_def]
        simp [hneg]
    · rw [hds]
      refine ⟨ine, ir, fun _ => ilast hmpos, ?_⟩
      intro h0
      exfalso
      have h0' : intDigitsAux (cppAbs64 n).natAbs (cppAbs64 n) = [0] := h0
      rw [h0'] at iv
      have hmz : magVal [0] = 0 := by simp [magVal]
      omega

/-! ## Parsing and formatting -/

theorem char_le_toNat {a b : Char} (h : a ≤ b) : a.toNat ≤ b.toNat := by
  rw [Char.le_def] at h
  rw [UInt32.le_def] at h
  rw [BitVec.le_def] at h
  exact h

theorem isdigit_mem {c : Char} (h : isdigitChar c = true) :
    c ∈ ['0', '1', '2', '3', '4', '5', '6', '7', '8', '9'] := by
  unfold isdigitChar at h
  rw [Bool.and_eq_true, decide_eq_true_eq, decide_eq_true_eq] at h
  obtain ⟨h1, h2⟩ := h
  have hl : '0'.toNat ≤ c.toNat := char_le_toNat h1
  have hr : c.toNat ≤ '9'.toNat := char_le_toNat h2
  have h48 : '0'.toNat = 48 := rfl
  have h57 : '9'.toNat = 57 := rfl
  rw [h48] at hl
  rw [h57] at hr
  have hc : c = Char.ofNat c.toNat := (Char.ofNat_toNat c).symm
  rw [hc]
  set n := c.toNat with hn
  interval_cases n <;> decide

theorem digitVal_range {c : Char} (h : isdigitChar c = true) :
    0 ≤ digitVal c ∧ digitVal c ≤ 9 := by
  have hm := isdigit_mem h
  fin_cases hm <;> decide

theorem intToChars_digit {c : Char} (h : isdigitChar c = true) :
    intToChars (digitVal c) = [c] := by
  have hm := isdigit_mem h
  fin_cases hm <;> decide

theorem digitVal_ne_zero {c : Char} (h : isdigitChar c = true) (h0 : c ≠ '0') :
    digitVal c ≠ 0 := by
  have hm := isdigit_mem h
  fin_cases hm
  · exact absurd rfl h0
  all_goals decide

theorem decFold (ds : List Char) : ∀ a : ℤ,
    ds.foldl (fun x c => 10 * x + digitVal c) a =
      a * 10 ^ ds.length + decDigitsVal ds := by
  induction ds with
  | nil =>
    intro a
    simp [decDigitsVal]
  | cons c cs ih =>
    intro a
    have hd : decDigitsVal (c :: cs) =
        (10 * 0 + digitVal c) * 10 ^ cs.length + decDigitsVal cs := by
      unfold decDigitsVal
      rw [List.foldl_cons]
      exact ih _
    rw [List.foldl_cons, ih, hd, List.length_cons, pow_succ]
    ring

theorem magVal_rev_map (ds : List Char) :
    magVal ((ds.map digitVal).reverse) = decDigitsVal ds := by
  induction ds with
  | nil => rfl
  | cons c cs ih =>
    rw [List.map_cons, List.reverse_cons, magVal_append, ih,
      List.length_reverse, List.length_map]
    have hd : decDigitsVal (c :: cs) =
        (10 * 0 + digitVal c) * 10 ^ cs.length + decDigitsVal cs := by
      unfold decDigitsVal
      rw [List.foldl_cons]
      exact decFold cs _
    rw [hd]
    simp [magVal]
    ring

theorem digitsInRange_rev_map {ds : List Char} (h : ∀ c ∈ ds, isdigitChar c = true) :
    DigitsInRange ((ds.map digitVal).reverse) := by
  intro d hd
  rw [List.mem_reverse, List.mem_map] at hd
  obtain ⟨c, hc, rfl⟩ := hd
  exact digitVal_range (h c hc)

theorem stripBack_id {r : List ℤ} (h : r.headI ≠ 0 ∨ r.length ≤ 1) :
    stripBack r = r := by
  cases r with
  | nil => rfl
  | cons d ds =>
    cases ds with
    | nil => rfl
    | cons e es =>
      rw [stripBack_cons₂]
      rcases h with h | h
      · rw [if_neg (by simpa using h)]
      · simp at h

theorem flatMap_digits {ds : List Char} (h : ∀ c ∈ ds, isdigitChar c = true) :
    (ds.map digitVal).flatMap intToChars = ds := by
  induction ds with
  | nil => rfl
  | cons c cs ih =>
    rw [List.map_cons, List.flatMap_cons,
      intToChars_digit (h c (List.mem_cons_self c cs)),
      ih (fun e he => h e (List.mem_cons_of_mem c he))]
    rfl

theorem val_ne_zero_iff (x : BigInt) : val x ≠ 0 ↔ magVal x.number ≠ 0 := by
  unfold val
  split <;> simp

/-! ## Claims -/

/-- C1: the claim says that for every `BigInt` x, `x + (-x)` equals (under
`operator==`) the canonical zero with a non-negative sign flag.  The code
refutes it: for x = -1 (a canonical value), `operator+` takes the
equal-magnitude opposite-sign branch, `absoluteSubtract` canonicalizes
the difference to the non-negative zero, and then the sign flag is
overwritten with the left operand's negative sign, producing a negative
zero that `operator==` reports unequal to `BigInt(0)`. -/
theorem C1_additive_inverse_bug :
    Canonical ⟨[1], true⟩ ∧
    negBI ⟨[1], true⟩ = ⟨[1], false⟩ ∧
    addBI ⟨[1], true⟩ (negBI ⟨[1], true⟩) = ⟨[0], true⟩ ∧
    eqBI (addBI ⟨[1], true⟩ (negBI ⟨[1], true⟩)) (mkInt64 0) = false ∧
    (addBI ⟨[1], true⟩ (negBI ⟨[1], true⟩)).isNegative = true := by
  decide

/-- C2: the claim says every public operation produces or preserves
canonical form.  The code refutes it: `operator+` on the canonical
operands -2 and 2 yields digits `[0]` with the negative flag set (the
sign is assigned after `absoluteSubtract`'s canonicalization), violating
the zero-sign invariant; pre-increment of -1 violates it the same way. -/
theorem C2_canonical_form_bug :
    Canonical ⟨[2], true⟩ ∧ Canonical ⟨[2], false⟩ ∧
    addBI ⟨[2], true⟩ ⟨[2], false⟩ = ⟨[0], true⟩ ∧
    ¬ Canonical (addBI ⟨[2], true⟩ ⟨[2], false⟩) ∧
    Canonical ⟨[1], true⟩ ∧
    ¬ Canonical (preIncrement ⟨[1], true⟩) := by
  decide

/-- C3: string construction fails with the invalid-format error exactly
when the input does not match `'-'? digit+` (empty, only a sign, or a
non-digit character), and on every input matching the grammar it
succeeds with the canonical value of the decimal numeral. -/
theorem C3_string_construction : ∀ s : List Char,
    ((∃ e, parseString s = Except.error e) ↔ ¬ GoodNumeral s) ∧
    (GoodNumeral s →
      ∃ x, parseString s = Except.ok x ∧ Canonical x ∧ val x = strToInt s) := by
  intro s
  cases s with
  | nil =>
    constructor
    · constructor
      · intro _ hg
        simp [GoodNumeral, goodNumeralB] at hg
      · intro _
        exact ⟨"It is empty", rfl⟩
    · intro hg
      simp [GoodNumeral, goodNumeralB] at hg
  | cons c cs =>
    by_cases hneg : c = '-'
    · subst hneg
      by_cases hcs : cs = []
      · subst hcs
        constructor
        · constructor
          · intro _ hg
            simp [GoodNumeral, goodNumeralB] at hg
          · intro _
            exact ⟨"Only the symbol of negative", rfl⟩
        · intro hg
          simp [GoodNumeral, goodNumeralB] at hg
      · by_cases hall : cs.all isdigitChar
        · have hgood : GoodNumeral ('-' :: cs) := by
            simp [GoodNumeral, goodNumeralB, hcs, hall]
          have hok : parseString ('-' :: cs) = Except.ok (removeLeadingZero
              ⟨(cs.map digitVal).reverse, true⟩) := by
            simp [parseString, hcs, hall]
          constructor
          · constructor
            · intro ⟨e, he⟩ _
              rw [hok] at he
              exact Except.noConfusion he
            · intro hng
              exact absurd hgood hng
          · intro _
            refine ⟨_, hok, ?_, ?_⟩
            · apply rlz_canonical
              · exact digitsInRange_rev_map (List.all_eq_true.mp hall)
              · simp [hcs]
            · rw [rlz_val, val_mk, magVal_rev_map]
              simp [strToInt]
        · constructor
          · constructor
            · intro _ hg
              simp [GoodNumeral, goodNumeralB, hall] at hg
            · intro _
              refine ⟨"String with other symbol", ?_⟩
              simp [parseString, hcs, hall]
          · intro hg
            simp [GoodNumeral, goodNumeralB, hall] at hg
    · by_cases hall : (c :: cs).all isdigitChar
      · have hgood : GoodNumeral (c :: cs) := by
          simp [GoodNumeral, goodNumeralB, hneg, hall]
        have hok : parseString (c :: cs) = Except.ok (removeLeadingZero
            ⟨((c :: cs).map digitVal).reverse, false⟩) := by
          simp [parseString, hneg, hall]
        constructor
        · constructor
          · intro ⟨e, he⟩ _
            rw [hok] at he
            exact Except.noConfusion he
          · intro hng
            exact absurd hgood hng
        · intro _
          refine ⟨_, hok, ?_, ?_⟩
          · apply rlz_canonical
            · exact digitsInRange_rev_map (List.all_eq_true.mp hall)
            · simp
          · rw [rlz_val, val_mk, magVal_rev_map]
            simp [strToInt, hneg]
      · constructor
        · constructor
          · intro _ hg
            simp [GoodNumeral, goodNumeralB, hneg, hall] at hg
          · intro _
            refine ⟨"String with other symbol", ?_⟩
            simp [parseString, hneg, hall]
        · intro hg
          simp [GoodNumeral, goodNumeralB, hneg, hall] at hg

/-- Witness for C3 at the concrete input `"42"`. -/
theorem C3_string_construction_witness :
    ∃ x, parseString ['4', '2'] = Except.ok x ∧
      Canonical x ∧ val x = strToInt ['4', '2'] :=
  (C3_string_construction ['4', '2']).2 (by decide)

/-- C4: the claim says the `int64_t` constructor is correct for every
input, including the minimum 64-bit value, because the absolute-value
step is special-cased or widened.  The code refutes the minimum-value
part: it calls `std::abs` directly, which overflows on the minimum value
(modelled as two's-complement wraparound), leaving the magnitude
negative; the digit loop then stores negative digits, and the
constructed value is `2^63` instead of `-2^63`.  For every other
representable value the construction is correct and canonical. -/
theorem C4_int64_construction :
    (∀ n : ℤ, -(2 ^ 63) < n → n < 2 ^ 63 →
      val (mkInt64 n) = n ∧ Canonical (mkInt64 n)) ∧
    val (mkInt64 (-(2 ^ 63))) = 2 ^ 63 ∧
    ¬ Canonical (mkInt64 (-(2 ^ 63))) := by
  refine ⟨fun n h1 h2 => mkInt64_spec h1 h2, ?_, ?_⟩
  · decide
  · decide

/-- Witness for C4 at the concrete input 7. -/
theorem C4_int64_construction_witness : val (mkInt64 7) = 7 :=
  (C4_int64_construction.1 7 (by decide) (by decide)).1

/-- C5: multiplication is exact on represented values; the result's sign
flag is set exactly when the operand signs differ and neither operand is
zero; `x * 1 == x` and `x * 0` is the non-negative zero. -/
theorem C5_multiplication : ∀ x y : BigInt, Canonical x → Canonical y →
    val (mulBI x y) = val x * val y ∧
    ((mulBI x y).isNegative = true ↔
      (x.isNegative ≠ y.isNegative ∧ val x ≠ 0 ∧ val y ≠ 0)) ∧
    eqBI (mulBI x (mkInt64 1)) x = true ∧
    mulBI x (mkInt64 0) = mkInt64 0 := by
  intro x y hx hy
  obtain ⟨hv, hc, hs⟩ := mulBI_spec hx hy
  refine ⟨hv, ?_, ?_, ?_⟩
  · rw [val_ne_zero_iff x, val_ne_zero_iff y]
    exact hs
  · have h1 : mkInt64 1 = (⟨[1], false⟩ : BigInt) := by decide
    have h1c : Canonical (⟨[1], false⟩ : BigInt) := by decide
    have h1v : val (⟨[1], false⟩ : BigInt) = 1 := by decide
    obtain ⟨hv1, hc1, _⟩ := mulBI_spec hx h1c
    rw [h1]
    apply eqBI_eq.mpr
    apply canonical_val_inj hc1 hx
    rw [hv1, h1v, mul_one]
  · have h0 : mkInt64 0 = (⟨[0], false⟩ : BigInt) := by decide
    have h0c : Canonical (⟨[0], false⟩ : BigInt) := by decide
    have h0v : val (⟨[0], false⟩ : BigInt) = 0 := by decide
    obtain ⟨hv0, hc0, _⟩ := mulBI_spec hx h0c
    rw [h0]
    apply canonical_val_inj hc0 h0c
    rw [hv0, h0v, mul_zero]

/-- Witness for C5 at the concrete inputs 2 and -3. -/
theorem C5_multiplication_witness :
    val (mulBI ⟨[2], false⟩ ⟨[3], true⟩) =
      val ⟨[2], false⟩ * val ⟨[3], true⟩ :=
  (C5_multiplication ⟨[2], false⟩ ⟨[3], true⟩ (by decide) (by decide)).1

theorem roundTripOk_neg {cs : List Char} (h : RoundTripOk ('-' :: cs)) :
    cs ≠ [] ∧ cs.all isdigitChar = true ∧ cs.headI ≠ '0' := by
  unfold RoundTripOk at h
  simp only [roundTripOkB] at h
  rw [if_pos trivial, Bool.and_eq_true, Bool.and_eq_true] at h
  obtain ⟨⟨h1, h2⟩, h3⟩ := h
  refine ⟨?_, h2, ?_⟩
  · intro h0
    subst h0
    simp at h1
  · intro h0
    rw [h0] at h3
    simp at h3

theorem roundTripOk_pos {c : Char} {cs : List Char} (hneg : c ≠ '-')
    (h : RoundTripOk (c :: cs)) :
    (c :: cs).all isdigitChar = true ∧ (c ≠ '0' ∨ cs = []) := by
  unfold RoundTripOk at h
  simp only [roundTripOkB] at h
  rw [if_neg hneg, Bool.and_eq_true] at h
  obtain ⟨h1, h2⟩ := h
  refine ⟨h1, ?_⟩
  rw [Bool.or_eq_true] at h2
  rcases h2 with h0 | h0
  · left
    simpa using h0
  · right
    simpa [List.isEmpty_iff] using h0

/-- C6: for every string matching `'-'? digit+` with no superfluous
leading zero digit and other than `"-0"`, formatting the parsed value
reproduces the string exactly. -/
theorem C6_round_trip : ∀ s : List Char, RoundTripOk s →
    ∃ x, parseString s = Except.ok x ∧ formatBI x = s := by
  intro s hrt
  cases s with
  | nil => simp [RoundTripOk, roundTripOkB] at hrt
  | cons c cs =>
    by_cases hneg : c = '-'
    · subst hneg
      obtain ⟨hcs, hall, hheadne⟩ := roundTripOk_neg hrt
      have hok : parseString ('-' :: cs) = Except.ok (removeLeadingZero
          ⟨(cs.map digitVal).reverse, true⟩) := by
        simp [parseString, hcs, hall]
      have hdigit_head : isdigitChar cs.headI = true := by
        apply List.all_eq_true.mp hall
        cases cs with
        | nil => exact absurd rfl hcs
        | cons c0 cs0 => exact List.mem_cons_self c0 cs0
      have hdv : digitVal cs.headI ≠ 0 := digitVal_ne_zero hdigit_head hheadne
      have hstrip : stripBack (cs.map digitVal) = cs.map digitVal := by
        apply stripBack_id
        left
        cases cs with
        | nil => exact absurd rfl hcs
        | cons c0 cs0 => simpa using hdv
      have hnz : (cs.map digitVal).reverse ≠ [0] := by
        intro h0
        have hmap : cs.map digitVal = [0] := by
          have := congrArg List.reverse h0
          simpa using this
        cases cs with
        | nil => exact absurd rfl hcs
        | cons c0 cs0 =>
          rw [List.map_cons] at hmap
          simp only [List.cons.injEq] at hmap
          exact absurd hmap.1 (by simpa using hdv)
      have hx : removeLeadingZero ⟨(cs.map digitVal).reverse, true⟩ =
          ⟨(cs.map digitVal).reverse, true⟩ := by
        unfold removeLeadingZero
        simp only [List.reverse_reverse, hstrip]
        rw [if_neg hnz]
      refine ⟨_, hok, ?_⟩
      rw [hx]
      simp only [formatBI, List.reverse_reverse]
      rw [flatMap_digits (List.all_eq_true.mp hall)]
      rfl
    · obtain ⟨hall, hz⟩ := roundTripOk_pos hneg hrt
      have hok : parseString (c :: cs) = Except.ok (removeLeadingZero
          ⟨((c :: cs).map digitVal).reverse, false⟩) := by
        simp [parseString, hneg, hall]
      have hcd : isdigitChar c = true :=
        List.all_eq_true.mp hall c (List.mem_cons_self c cs)
      have hstrip : stripBack ((c :: cs).map digitVal) = (c :: cs).map digitVal := by
        apply stripBack_id
        rcases hz with h0 | h0
        · left
          simpa using digitVal_ne_zero hcd h0
        · right
          rw [h0]
          simp
      have hx : removeLeadingZero ⟨((c :: cs).map digitVal).reverse, false⟩ =
          ⟨((c :: cs).map digitVal).reverse, false⟩ := by
        unfold removeLeadingZero
        simp only [List.reverse_reverse, hstrip]
        split <;> rfl
      refine ⟨_, hok, ?_⟩
      rw [hx]
      simp only [formatBI, List.reverse_reverse]
      rw [flatMap_digits (List.all_eq_true.mp hall)]
      rfl

/-- Witness for C6 at the concrete input `"-12"`. -/
theorem C6_round_trip_witness :
    ∃ x, parseString ['-', '1', '2'] = Except.ok x ∧
      formatBI x = ['-', '1', '2'] :=
  C6_round_trip ['-', '1', '2'] (by decide)

/-- C7: exactly one of `<`, `==`, `>` holds on every pair of canonical
values; `<=` and `>=` are the boolean negations of `>` and `<`; the
ordering follows the signed rule (differing signs answer with the left
operand's sign; two negatives reverse the magnitude order; two
non-negatives follow the magnitude order). -/
theorem C7_ordering : ∀ x y : BigInt, Canonical x → Canonical y →
    ((ltBI x y = true ∧ eqBI x y = false ∧ gtBI x y = false) ∨
     (ltBI x y = false ∧ eqBI x y = true ∧ gtBI x y = false) ∨
     (ltBI x y = false ∧ eqBI x y = false ∧ gtBI x y = true)) ∧
    leBI x y = !(gtBI x y) ∧
    geBI x y = !(ltBI x y) ∧
    (x.isNegative ≠ y.isNegative → ltBI x y = x.isNegative) ∧
    (x.isNegative = true → y.isNegative = true →
      (ltBI x y = true ↔ magVal y.number < magVal x.number)) ∧
    (x.isNegative = false → y.isNegative = false →
      (ltBI x y = true ↔ magVal x.number < magVal y.number)) := by
  intro x y hx hy
  have hlt := ltBI_iff_val hx hy
  have hgt := ltBI_iff_val hy hx
  have heq := eqBI_iff_val hx hy
  refine ⟨?_, rfl, rfl, fun h => ltBI_signs_differ h,
    fun a b => ltBI_both_neg hx hy a b, fun a b => ltBI_both_nonneg hx hy a b⟩
  rcases lt_trichotomy (val x) (val y) with h | h | h
  · left
    refine ⟨hlt.mpr h, ?_, ?_⟩
    · cases hb : eqBI x y with
      | false => rfl
      | true => exact absurd (heq.mp hb) (by omega)
    · cases hb : ltBI y x with
      | false => exact hb
      | true => exact absurd (hgt.mp hb) (by omega)
  · right
    left
    refine ⟨?_, heq.mpr h, ?_⟩
    · cases hb : ltBI x y with
      | false => rfl
      | true => exact absurd (hlt.mp hb) (by omega)
    · cases hb : ltBI y x with
      | false => exact hb
      | true => exact absurd (hgt.mp hb) (by omega)
  · right
    right
    refine ⟨?_, ?_, hgt.mpr h⟩
    · cases hb : ltBI x y with
      | false => rfl
      | true => exact absurd (hlt.mp hb) (by omega)
    · cases hb : eqBI x y with
      | false => rfl
      | true => exact absurd (heq.mp hb) (by omega)

/-- Witness for C7 at the concrete inputs 1 and 2. -/
theorem C7_ordering_witness :
    leBI ⟨[1], false⟩ ⟨[2], false⟩ = !(gtBI ⟨[1], false⟩ ⟨[2], false⟩) :=
  (C7_ordering ⟨[1], false⟩ ⟨[2], false⟩ (by decide) (by decide)).2.1

/-- C8: post-increment and post-decrement return the pre-mutation
snapshot and leave the object at the pre-form's result; pre-increment and
pre-decrement change the represented value by +1 and -1; incrementing
then decrementing restores the original state exactly. -/
theorem C8_increment_decrement : ∀ x : BigInt, Canonical x →
    postIncrement x = (x, preIncrement x) ∧
    postDecrement x = (x, preDecrement x) ∧
    val (preIncrement x) = val x + 1 ∧
    val (preDecrement x) = val x - 1 ∧
    preDecrement (preIncrement x) = x := by
  intro x hx
  have hone : mkInt64 1 = (⟨[1], false⟩ : BigInt) := by decide
  have honec : Canonical (⟨[1], false⟩ : BigInt) := by decide
  have honev : val (⟨[1], false⟩ : BigInt) = 1 := by decide
  have hmag1 : magVal [1] = 1 := by decide
  have hinc : preIncrement x = addBI x ⟨[1], false⟩ := by
    unfold preIncrement
    rw [hone]
  have hdec : ∀ z : BigInt, preDecrement z = subBI z ⟨[1], false⟩ := by
    intro z
    unfold preDecrement
    rw [hone]
  refine ⟨rfl, rfl, ?_, ?_, ?_⟩
  · rw [hinc, (addBI_spec hx honec).1, honev]
  · rw [hdec, (subBI_spec hx honec).1, honev]
  · by_cases hexc : x.isNegative = true ∧ magVal x.number = 1
    · have hx1 : x.number = [1] := by
        apply @canonDigits_inj x.number [1] ⟨hx.1, hx.2.1, hx.2.2.1⟩ (by decide)
        rw [hexc.2, hmag1]
      have hxx : x = ⟨[1], true⟩ := by
        cases x with
        | mk n s =>
          simp only at hx1
          have hs : s = true := hexc.1
          rw [hx1, hs]
      rw [hxx]
      decide
    · have hyc : Canonical (addBI x ⟨[1], false⟩) := by
        apply (addBI_spec hx honec).2.2
        intro ⟨h1, _, h3⟩
        apply hexc
        refine ⟨h1, ?_⟩
        rw [h3]
        exact hmag1
      have hyv : val (addBI x ⟨[1], false⟩) = val x + 1 := by
        rw [(addBI_spec hx honec).1, honev]
      have hzc : Canonical (subBI (addBI x ⟨[1], false⟩) ⟨[1], false⟩) := by
        apply (subBI_spec hyc honec).2
        intro ⟨_, h2, _⟩
        have hno : negBI ⟨[1], false⟩ = (⟨[1], true⟩ : BigInt) := by decide
        rw [hno] at h2
        simp at h2
      have hzv : val (subBI (addBI x ⟨[1], false⟩) ⟨[1], false⟩) = val x := by
        rw [(subBI_spec hyc honec).1, hyv, honev]
        ring
      rw [hinc, hdec]
      exact canonical_val_inj hzc hx hzv

/-- Witness for C8 at the concrete input 5. -/
theorem C8_increment_decrement_witness :
    preDecrement (preIncrement ⟨[5], false⟩) = ⟨[5], false⟩ :=
  (C8_increment_decrement ⟨[5], false⟩ (by decide)).2.2.2.2

/-- C9: one application of `removeLeadingZero` leaves a state that a
second application does not change; after one application the digit
vector has no most-significant zero digit beyond a singleton, and when
it is exactly `[0]` the sign flag is non-negative. -/
theorem C9_canonicalization_idempotent : ∀ x : BigInt,
    removeLeadingZero (removeLeadingZero x) = removeLeadingZero x ∧
    ShapeOk (removeLeadingZero x).number ∧
    ((removeLeadingZero x).number = [0] →
      (removeLeadingZero x).isNegative = false) := by
  intro x
  refine ⟨rlz_idem x, ?_, ?_⟩
  · rw [rlz_number]
    intro hlen
    rw [List.length_reverse] at hlen
    rw [headI_reverse_getLastD]
    exact stripBack_headI hlen
  · intro h
    have h' : (stripBack x.number.reverse).reverse = [0] := h
    rw [rlz_isNegative, if_pos h']

/-- Witness for C9 at a concrete non-canonical state. -/
theorem C9_canonicalization_idempotent_witness :
    removeLeadingZero (removeLeadingZero ⟨[0, 0], true⟩) =
      removeLeadingZero ⟨[0, 0], true⟩ :=
  (C9_canonicalization_idempotent ⟨[0, 0], true⟩).1

/-- C10: `operator!=` returns exactly the boolean negation of
`operator==`, although each recomputes the digit and sign comparisons. -/
theorem C10_ne_eq_negation : ∀ x y : BigInt, neBI x y = !(eqBI x y) := by
  intro x y
  rfl

end BigIntModel
